import Mathlib

/-!
Verification development for the seedless keyword discovery and scoring
pipeline (TypeScript sources: src/utils/text.ts, src/utils/stats.ts,
src/search/search-results.ts autocomplete enumerator, src/storage keyword
store, and the opportunity scorer).

Conventions of the shallow embedding:
- JavaScript numbers are modelled as exact rationals; the separate
  inductive JsNum marks the non-finite values (NaN, Infinity) where the
  source tests Number.isFinite.
- Strings are Lean strings; all character-level work happens on the
  underlying character lists. The Unicode-dependent primitives (the \s
  character class, the \p left-brace L right-brace and \p left-brace N
  right-brace classes, NFKC normalization, toLowerCase) are modelled on
  the fragment of Unicode actually exercised here; each model states in
  its doc comment which concrete code points it covers, matching the
  Unicode character database.
- Asynchronous methods become pure functions; fallible calls return
  Except Unit.
-/

/-- Model of the JavaScript regex class \s (whitespace): ASCII whitespace
controls, space, NBSP (U+00A0), line/paragraph separators (U+2028/U+2029)
and the BOM (U+FEFF). -/
def isJsSpace (c : Char) : Bool :=
  c.toNat = 32 || c.toNat = 9 || c.toNat = 10 || c.toNat = 11 ||
  c.toNat = 12 || c.toNat = 13 || c.toNat = 0xA0 ||
  c.toNat = 0x2028 || c.toNat = 0x2029 || c.toNat = 0xFEFF

/-- Modelled fragment of Unicode NFKC normalization, applied character by
character: identity except for the listed compatibility decomposition
(U+00BD VULGAR FRACTION ONE HALF decomposes to U+0031, U+2044 FRACTION
SLASH, U+0032 per UnicodeData.txt). Composition effects between adjacent
characters are not modelled. -/
def nfkcChar (c : Char) : List Char :=
  if c = '½' then ['1', '⁄', '2'] else [c]

/-- Partial model of the character class \p left-brace L right-brace and
\p left-brace N right-brace (Unicode letters and numbers): ASCII letters
and digits plus U+00BD (category No). U+2044 FRACTION SLASH has category
Sm and is correctly outside the class. -/
def isUnicodeWordChar (c : Char) : Bool :=
  c.isAlpha || c.isDigit || c = '½'

/-- The apostrophe character (U+0027). -/
def aposChar : Char := Char.ofNat 39

/-- A character NOT replaced by the NON_WORD_PATTERN cleaning pass of
normalizeKeyword: the class [\p left-brace L right-brace \p left-brace N
right-brace \s hyphen apostrophe]. -/
def isKeptChar (c : Char) : Bool :=
  isUnicodeWordChar c || isJsSpace c || c = '-' || c = aposChar

/-- JavaScript String.prototype.trim on a character list. -/
def jsTrimL (l : List Char) : List Char :=
  ((l.dropWhile isJsSpace).reverse.dropWhile isJsSpace).reverse

/-- JavaScript value.replace of the pattern one-or-more whitespace by a
single space: every maximal run of whitespace characters becomes one
space character. -/
def collapseWsL : List Char → List Char
  | [] => []
  | c :: rest =>
    let r := collapseWsL rest
    if isJsSpace c then
      if r.head? = some ' ' then r else ' ' :: r
    else c :: r

/-- normalizeWhitespace from src/utils/text.ts:
value.replace(SPACE_PATTERN, one space).trim(). -/
def normalizeWhitespaceL (l : List Char) : List Char :=
  jsTrimL (collapseWsL l)

/-- Character-wise toLowerCase (ASCII case mapping, identity on the
non-ASCII code points of this development, matching JavaScript
toLowerCase on them). -/
def lowerL (l : List Char) : List Char :=
  l.map Char.toLower

/-- String.prototype.normalize with form NFKC, on the modelled fragment. -/
def nfkcL (l : List Char) : List Char :=
  l.flatMap nfkcChar

/-- normalizeKeyword from src/utils/text.ts: collapse and trim
whitespace, replace every character outside the word class by a space,
collapse again, NFKC-normalize and lowercase, and require at least two
characters; returns null (none) when any stage empties the phrase or the
result is shorter than two characters. -/
def normalizeKeyword (s : String) : Option String :=
  let trimmed := normalizeWhitespaceL s.data
  if trimmed.isEmpty then none
  else
    let cleaned := trimmed.map (fun c => if isKeptChar c then c else ' ')
    let collapsed := normalizeWhitespaceL cleaned
    if collapsed.isEmpty then none
    else
      let normalized := lowerL (nfkcL collapsed)
      if normalized.length < 2 then none else some ⟨normalized⟩

/-- sanitizeKeyword from src/search/search-results.ts (the enumerator
normalizer): trim, collapse inner whitespace, NFKC-normalize and
lowercase, and require at least two characters. -/
def sanitizeKeyword (s : String) : Option String :=
  let trimmed := jsTrimL s.data
  if trimmed.isEmpty then none
  else
    let collapsed := collapseWsL trimmed
    let normalized := lowerL (nfkcL collapsed)
    if 2 ≤ normalized.length then some ⟨normalized⟩ else none

/-- Insertion step of the sorting model. -/
def insertLe {α : Type} (le : α → α → Bool) (a : α) : List α → List α
  | [] => [a]
  | b :: l => if le a b then a :: b :: l else b :: insertLe le a l

/-- Model of Array.prototype.sort with a comparator: a stable sort of the
array by the comparator order (insertion sort). -/
def sortLe {α : Type} (le : α → α → Bool) (l : List α) : List α :=
  l.foldr (insertLe le) []

/-- The numeric ascending comparator (a, b) => a - b. -/
def numericAsc (a b : ℚ) : Bool := decide (a ≤ b)

/-- median from src/utils/stats.ts. -/
def median (values : List ℚ) : Option ℚ :=
  if values.isEmpty then none
  else
    let sorted := sortLe numericAsc values
    let mid := sorted.length / 2
    if sorted.length % 2 = 0 then
      some ((sorted.getD (mid - 1) 0 + sorted.getD mid 0) / 2)
    else some (sorted.getD mid 0)

/-- Math.floor on a rational (floor toward negative infinity). -/
def jsFloor (q : ℚ) : ℤ := ⌊q⌋

/-- Math.ceil on a rational (ceiling toward positive infinity). -/
def jsCeil (q : ℚ) : ℤ := -⌊-q⌋

/-- percentile from src/utils/stats.ts: linear interpolation between the
two closest ranks. -/
def percentile (values : List ℚ) (percentileValue : ℚ) : Option ℚ :=
  if values.isEmpty then none
  else
    let sorted := sortLe numericAsc values
    let rank := (percentileValue / 100) * ((sorted.length : ℚ) - 1)
    let lowerIndex := jsFloor rank
    let upperIndex := jsCeil rank
    if lowerIndex = upperIndex then some (sorted.getD lowerIndex.toNat 0)
    else
      let weight := rank - (lowerIndex : ℚ)
      some (sorted.getD lowerIndex.toNat 0 * (1 - weight) +
            sorted.getD upperIndex.toNat 0 * weight)

/-- iqr from src/utils/stats.ts: null for fewer than two values,
otherwise the 75th minus the 25th percentile. -/
def iqr (values : List ℚ) : Option ℚ :=
  if values.length < 2 then none
  else
    match percentile values 25, percentile values 75 with
    | some q1, some q3 => some (q3 - q1)
    | _, _ => none

/-- medianAbsoluteDeviation from src/utils/stats.ts. -/
def medianAbsoluteDeviation (values : List ℚ) : Option ℚ :=
  if values.isEmpty then none
  else
    match median values with
    | none => none
    | some med => median (values.map (fun v => |v - med|))

/-- A JavaScript number as seen by Number.isFinite: either a finite value
(an exact rational here) or one of the non-finite values. -/
inductive JsNum where
  | num (q : ℚ)
  | nan
  | posInf
  | negInf
deriving DecidableEq

/-- robustNormalize from src/utils/stats.ts: 0 for non-finite values or
an empty series; otherwise center by the series median and scale by the
IQR, falling back to the MAD when the IQR is null, returning the raw
value when the chosen spread is zero. Spreads are always finite in the
rational model, so the Number.isFinite(spread) guard of the source cannot
fire here. -/
def robustNormalize (value : JsNum) (series : List ℚ) : ℚ :=
  match value with
  | JsNum.num v =>
    if series.isEmpty then 0
    else
      match median series with
      | none => v
      | some med =>
        let spread := (iqr series).getD ((medianAbsoluteDeviation series).getD 1)
        if spread = 0 then v else (v - med) / spread
  | _ => 0

/-- A listing scraped from one search result page (the fields consumed by
the metadata computations). -/
structure SearchListingRecord where
  position : ℕ
  page : ℕ
  listingId : String
  shop : Option String
  price : Option ℚ
  isAd : Bool
deriving DecidableEq

/-- Shop identity resolution inside computeDominanceIndex:
listing.shop?.toLowerCase().trim(), with empty or missing results
discarded. -/
def resolveShop (shop : Option String) : Option String :=
  match shop with
  | none => none
  | some s =>
    let t := jsTrimL (lowerL s.data)
    if t.isEmpty then none else some ⟨t⟩

/-- computeDominanceIndex from src/index.ts: null on an empty sample or
when no shop identity resolves; otherwise the sum over distinct resolved
shops of the squared share count-of-shop / total-listings. -/
def computeDominanceIndex (listings : List SearchListingRecord) : Option ℚ :=
  if listings.isEmpty then none
  else
    let shops := listings.filterMap (fun l => resolveShop l.shop)
    let groups := shops.dedup
    if groups.isEmpty then none
    else
      let total : ℚ := (listings.length : ℚ)
      some ((groups.map (fun s =>
        let share := ((shops.count s : ℕ) : ℚ) / total
        share * share)).sum)

/-- One row of the search_results_metadata table (the fields the scorer
reads). -/
structure SearchResultsMetadataRecord where
  keyword : String
  resultsCount : Option ℚ
  adRatio : Option ℚ
  dominanceIndex : Option ℚ
  priceMedian : Option ℚ
  priceIqrOverMedian : Option ℚ
deriving DecidableEq

/-- One row of the keyword_listing_metrics table (the fields the scorer
reads). -/
structure ListingSampleRecord where
  keyword : String
  sampleSize : ℕ
  avgFavorites : Option ℚ
  medianFavorites : Option ℚ
  reviewVelocity : Option ℚ
  priceMedian : Option ℚ
  priceIqrOverMedian : Option ℚ
deriving DecidableEq

/-- One row of the trends_cache table (the fields the scorer reads). -/
structure GoogleTrendsRecord where
  keyword : String
  interest : Option ℚ
deriving DecidableEq

/-- The aggregation join target of the scorer: up to one record from each
of the three metric tables. -/
structure AggregatedMetrics where
  metadata : Option SearchResultsMetadataRecord := none
  listing : Option ListingSampleRecord := none
  trends : Option GoogleTrendsRecord := none
deriving DecidableEq

/-- JavaScript Map.prototype.set on an insertion-ordered association
list: replace in place when the key exists, append otherwise. -/
def mapSet {α : Type} (m : List (String × α)) (k : String) (v : α) : List (String × α) :=
  if m.any (fun kv => kv.1 = k) then
    m.map (fun kv => if kv.1 = k then (k, v) else kv)
  else m ++ [(k, v)]

/-- JavaScript Map.prototype.get on the association-list model. -/
def mapGet {α : Type} (m : List (String × α)) (k : String) : Option α :=
  (m.find? (fun kv => kv.1 = k)).map Prod.snd

/-- The nullish-coalescing operator a ?? b on optional values. -/
def coalesce {α : Type} (a b : Option α) : Option α :=
  match a with
  | some x => some x
  | none => b

/-- The metadata pass of buildAggregatedMetrics: install a fresh entry
per keyword. -/
def metadataPass (m : List (String × AggregatedMetrics))
    (records : List SearchResultsMetadataRecord) : List (String × AggregatedMetrics) :=
  records.foldl (fun m r => mapSet m r.keyword { metadata := some r }) m

/-- The listing-metrics pass of buildAggregatedMetrics. -/
def listingsPass (m : List (String × AggregatedMetrics))
    (records : List ListingSampleRecord) : List (String × AggregatedMetrics) :=
  records.foldl (fun m r =>
    let existing := (mapGet m r.keyword).getD {}
    mapSet m r.keyword { existing with listing := some r }) m

/-- The trends pass of buildAggregatedMetrics. -/
def trendsPass (m : List (String × AggregatedMetrics))
    (records : List GoogleTrendsRecord) : List (String × AggregatedMetrics) :=
  records.foldl (fun m r =>
    let existing := (mapGet m r.keyword).getD {}
    mapSet m r.keyword { existing with trends := some r }) m

/-- OpportunityScorer.buildAggregatedMetrics: one pass per metric table;
the metadata pass installs a fresh entry per keyword, the listing and
trends passes update the existing entry (or a fresh empty one) for their
keyword. -/
def buildAggregatedMetrics (metadata : List SearchResultsMetadataRecord)
    (listings : List ListingSampleRecord) (trends : List GoogleTrendsRecord) :
    List (String × AggregatedMetrics) :=
  trendsPass (listingsPass (metadataPass [] metadata) listings) trends

/-- collectSeries from the scorer: keep the present entries of a column.
The source also filters for finite numbers; stored values are finite
rationals in this model, so presence is the only filter. -/
def collectSeries (records : List (Option ℚ)) : List ℚ :=
  records.filterMap id

/-- The seven population series the scorer normalizes against. -/
structure SeriesBundle where
  logResults : List ℚ
  adRatio : List ℚ
  dominance : List ℚ
  priceDispersion : List ℚ
  reviewVelocity : List ℚ
  favorites : List ℚ
  trends : List ℚ
deriving DecidableEq

/-- The demand component breakdown of a snapshot. -/
structure DemandComponents where
  trends : ℚ
  reviewVelocity : ℚ
  favorites : ℚ
deriving DecidableEq

/-- The competition component breakdown of a snapshot. -/
structure CompetitionComponents where
  resultsCount : ℚ
  adRatio : ℚ
  dominance : ℚ
  priceDispersion : ℚ
deriving DecidableEq

/-- The weighted component breakdown stored on a snapshot. -/
structure SnapshotComponents where
  demand : DemandComponents
  competition : CompetitionComponents
deriving DecidableEq

/-- An opportunity snapshot row. -/
structure OpportunitySnapshotRecord where
  keyword : String
  resultsCount : Option ℚ
  adRatio : Option ℚ
  dominanceIndex : Option ℚ
  priceMedian : Option ℚ
  priceIqrOverMedian : Option ℚ
  favoritesAvg : Option ℚ
  reviewVelocity : Option ℚ
  trendsAvg : Option ℚ
  demandScore : ℚ
  competitionScore : ℚ
  opportunityScore : ℚ
  computedTs : ℕ
  components : SnapshotComponents
deriving DecidableEq

/-- The five scoring weights. -/
structure WeightsConfig where
  review_velocity : ℚ
  favorites : ℚ
  ad_ratio : ℚ
  dominance : ℚ
  price_dispersion : ℚ
deriving DecidableEq

/-- Normalization of an optional signal: an absent signal contributes 0,
a present one is robust-normalized against its population series. -/
def optNormalize (v : Option ℚ) (series : List ℚ) : ℚ :=
  match v with
  | some x => robustNormalize (JsNum.num x) series
  | none => 0

/-- OpportunityScorer.computeSnapshot. Math.log1p is kept abstract as the
log1p argument (an arbitrary function on rationals); every theorem below
holds for all of its values. The source type admits null but the function
always returns a record. -/
def computeSnapshot (log1p : ℚ → ℚ) (weights : WeightsConfig) (now : ℕ)
    (keyword : String) (metrics : AggregatedMetrics) (series : SeriesBundle) :
    OpportunitySnapshotRecord :=
  let resultsCount := metrics.metadata.bind (fun r => r.resultsCount)
  let logResults := resultsCount.map log1p
  let adRatio := metrics.metadata.bind (fun r => r.adRatio)
  let dominance := metrics.metadata.bind (fun r => r.dominanceIndex)
  let priceDispersion := coalesce (metrics.listing.bind (fun r => r.priceIqrOverMedian))
    (metrics.metadata.bind (fun r => r.priceIqrOverMedian))
  let favoritesAvg := coalesce (metrics.listing.bind (fun r => r.avgFavorites))
    (metrics.listing.bind (fun r => r.medianFavorites))
  let reviewVelocity := metrics.listing.bind (fun r => r.reviewVelocity)
  let trendsAvg := metrics.trends.bind (fun r => r.interest)
  let priceMedian := coalesce (metrics.listing.bind (fun r => r.priceMedian))
    (metrics.metadata.bind (fun r => r.priceMedian))
  let dTrends := optNormalize trendsAvg series.trends
  let dReviewVelocity := optNormalize reviewVelocity series.reviewVelocity
  let dFavorites := optNormalize favoritesAvg series.favorites
  let cResultsCount := optNormalize logResults series.logResults
  let cAdRatio := optNormalize adRatio series.adRatio
  let cDominance := optNormalize dominance series.dominance
  let cPriceDispersion := optNormalize priceDispersion series.priceDispersion
  let demandScore := dTrends + weights.review_velocity * dReviewVelocity +
    weights.favorites * dFavorites
  let competitionScore := cResultsCount + weights.ad_ratio * cAdRatio +
    weights.dominance * cDominance + weights.price_dispersion * cPriceDispersion
  let opportunityScore := demandScore / (1 + max 0 competitionScore)
  { keyword := keyword
    resultsCount := resultsCount
    adRatio := adRatio
    dominanceIndex := dominance
    priceMedian := priceMedian
    priceIqrOverMedian := priceDispersion
    favoritesAvg := favoritesAvg
    reviewVelocity := reviewVelocity
    trendsAvg := trendsAvg
    demandScore := demandScore
    competitionScore := competitionScore
    opportunityScore := opportunityScore
    computedTs := now
    components := {
      demand := {
        trends := dTrends
        reviewVelocity := weights.review_velocity * dReviewVelocity
        favorites := weights.favorites * dFavorites }
      competition := {
        resultsCount := cResultsCount
        adRatio := weights.ad_ratio * cAdRatio
        dominance := weights.dominance * cDominance
        priceDispersion := weights.price_dispersion * cPriceDispersion } } }

/-- OpportunityScorer.compute: build the aggregation join and the
population series, compute one snapshot per aggregated entry, and sort
descending by opportunity score. -/
def scorerCompute (log1p : ℚ → ℚ) (weights : WeightsConfig) (now : ℕ)
    (metadata : List SearchResultsMetadataRecord) (listings : List ListingSampleRecord)
    (trends : List GoogleTrendsRecord) : List OpportunitySnapshotRecord :=
  let aggregated := buildAggregatedMetrics metadata listings trends
  let series : SeriesBundle := {
    logResults := collectSeries (metadata.map (fun r => r.resultsCount.map log1p))
    adRatio := collectSeries (metadata.map (fun r => r.adRatio))
    dominance := collectSeries (metadata.map (fun r => r.dominanceIndex))
    priceDispersion := collectSeries (listings.map (fun r => r.priceIqrOverMedian) ++
      metadata.map (fun r => r.priceIqrOverMedian))
    reviewVelocity := collectSeries (listings.map (fun r => r.reviewVelocity))
    favorites := collectSeries (listings.map (fun r => coalesce r.avgFavorites r.medianFavorites))
    trends := collectSeries (trends.map (fun r => r.interest)) }
  let snapshots := aggregated.map (fun kv => computeSnapshot log1p weights now kv.1 kv.2 series)
  sortLe (fun a b => decide (b.opportunityScore ≤ a.opportunityScore)) snapshots

/-- The two autocomplete source names. -/
inductive SourceName where
  | etsy
  | google
deriving DecidableEq

/-- The string tag of a source name. -/
def SourceName.tag : SourceName → String
  | SourceName.etsy => "etsy"
  | SourceName.google => "google"

/-- An opaque provenance payload: json wraps a source-provided payload,
original and raw are the two default wrappers the enumerator and the
store attach around the raw keyword text. -/
inductive Payload where
  | json (s : String)
  | original (s : String)
  | raw (s : String)
deriving DecidableEq

/-- One autocomplete suggestion tuple. The field recording the query
string that produced the suggestion is called pfx here because its
source name is a reserved word in Lean. -/
structure AutocompleteSuggestion where
  keyword : String
  source : SourceName
  pfx : String
  rank : ℕ
  payload : Option Payload
deriving DecidableEq

/-- A pluggable suggestion source: a name and a fetch operation. A fetch
that throws is modelled as Except.error; resource disposal has no
observable effect on the run state and is not modelled. -/
structure AutocompleteSource where
  name : SourceName
  fetch : String → Except Unit (List AutocompleteSuggestion)

/-- hashKeyword from src/index.ts builds a SHA-1 digest of
source:keyword; the digest is modelled by its preimage, which stands in
for it injectively. -/
def hashKeyword (source : String) (keyword : String) : String :=
  source ++ ":" ++ keyword

/-- One row of the keywords table (primary key: keyword, source). -/
structure KeywordRow where
  seedlessId : String
  keyword : String
  source : SourceName
  firstSeenTs : ℕ
  lastSeenTs : ℕ
deriving DecidableEq

/-- One row of the autocomplete_suggestions table (primary key: keyword,
source, producing query string). -/
structure SuggestionRow where
  keyword : String
  source : SourceName
  pfx : String
  rank : ℕ
  payload : Payload
  fetchedTs : ℕ
deriving DecidableEq

/-- The Store tables the enumerator writes. -/
structure StoreState where
  keywords : List KeywordRow
  suggestions : List SuggestionRow
deriving DecidableEq

/-- upsertKeywordSource from src/index.ts: insert a candidate row, or on
conflict of (keyword, source) refresh only last_seen_ts. -/
def upsertKeywordSource (now : ℕ) (keyword : String) (source : SourceName)
    (rows : List KeywordRow) : List KeywordRow :=
  if rows.any (fun r => decide (r.keyword = keyword ∧ r.source = source)) then
    rows.map (fun r =>
      if r.keyword = keyword ∧ r.source = source then { r with lastSeenTs := now } else r)
  else
    rows ++ [{ seedlessId := hashKeyword source.tag keyword, keyword := keyword,
               source := source, firstSeenTs := now, lastSeenTs := now }]

/-- The autocomplete_suggestions upsert: insert a suggestion row, or on
conflict of (keyword, source, producing query) overwrite rank, payload
and fetched_ts. -/
def upsertSuggestionRow (now : ℕ) (keyword : String) (source : SourceName) (pfx : String)
    (rank : ℕ) (payload : Payload) (rows : List SuggestionRow) : List SuggestionRow :=
  if rows.any (fun r => decide (r.keyword = keyword ∧ r.source = source ∧ r.pfx = pfx)) then
    rows.map (fun r =>
      if r.keyword = keyword ∧ r.source = source ∧ r.pfx = pfx then
        { r with rank := rank, payload := payload, fetchedTs := now }
      else r)
  else rows ++ [⟨keyword, source, pfx, rank, payload, now⟩]

/-- KeywordStore.saveSuggestions: for each suggestion of the batch,
re-normalize the keyword with normalizeKeyword (skipping failures),
upsert the (keyword, source) candidate row, and upsert the (keyword,
source, producing query) suggestion row. The batch runs in one
transaction; the returned processed count is not used by the enumerator
and is not modelled. -/
def saveSuggestions (now : ℕ) (batch : List AutocompleteSuggestion) (st : StoreState) :
    StoreState :=
  batch.foldl (fun acc sg =>
    match normalizeKeyword sg.keyword with
    | none => acc
    | some nk =>
      { keywords := upsertKeywordSource now nk sg.source acc.keywords
        suggestions := upsertSuggestionRow now nk sg.source sg.pfx sg.rank
          (sg.payload.getD (Payload.raw sg.keyword)) acc.suggestions }) st

/-- The per-source persisted counters (Record with keys etsy, google). -/
structure SourceBreakdown where
  etsy : ℕ
  google : ℕ
deriving DecidableEq

/-- ensureSourceBreakdown: both counters at zero. -/
def ensureSourceBreakdown : SourceBreakdown := ⟨0, 0⟩

/-- Increment the counter of one source. -/
def SourceBreakdown.bump (b : SourceBreakdown) : SourceName → SourceBreakdown
  | SourceName.etsy => { b with etsy := b.etsy + 1 }
  | SourceName.google => { b with google := b.google + 1 }

/-- The per-prefix perSourceSeen map (one deduplication set per source
name). -/
structure PerSourceSeen where
  etsy : List String
  google : List String
deriving DecidableEq

/-- Lookup of the seen set of one source. -/
def PerSourceSeen.get (s : PerSourceSeen) : SourceName → List String
  | SourceName.etsy => s.etsy
  | SourceName.google => s.google

/-- Add a keyword to the seen set of one source. -/
def PerSourceSeen.add (s : PerSourceSeen) : SourceName → String → PerSourceSeen
  | SourceName.etsy, k => { s with etsy := s.etsy.insert k }
  | SourceName.google, k => { s with google := s.google.insert k }

/-- The state the per-prefix processing threads through: the run-wide
unique set, persisted-combination set and per-source counters, plus the
per-prefix unique set, per-source seen sets and suggestion batch. The
source mutates the run-wide sets in place; threading them through this
context and merging them back after the prefix is observationally
identical because the per-prefix phase is their only reader. -/
structure RunCtx where
  uniq : List String
  combos : List (SourceName × String)
  breakdown : SourceBreakdown
  pfxUnique : List String
  seen : PerSourceSeen
  batch : List AutocompleteSuggestion
deriving DecidableEq

/-- The per-suggestion body of AutocompleteEnumerator.run: normalize and
require two characters, deduplicate per source within the prefix, discard
phrases that are new to the run-wide unique set once the budget is
reached, record the phrase in the seen/unique sets, and unless the
(source, phrase) combination was already persisted this run, append the
suggestion to the batch and count it for the source. -/
def processSuggestion (budget : ℕ) (pfx : String) (srcName : SourceName)
    (c : RunCtx) (sg : AutocompleteSuggestion) : RunCtx :=
  match sanitizeKeyword sg.keyword with
  | none => c
  | some nk =>
    if nk ∈ c.seen.get srcName then c
    else if nk ∉ c.uniq ∧ budget ≤ c.uniq.length then c
    else if (sg.source, nk) ∈ c.combos then
      -- the seen/unique updates of the source precede the
      -- persisted-combination check but do not touch the combination set,
      -- so the check reads the incoming combination set
      { c with
        seen := c.seen.add srcName nk
        uniq := c.uniq.insert nk
        pfxUnique := c.pfxUnique.insert nk }
    else
      { c with
        seen := c.seen.add srcName nk
        uniq := c.uniq.insert nk
        pfxUnique := c.pfxUnique.insert nk
        combos := (sg.source, nk) :: c.combos
        batch := c.batch ++
          [{ keyword := nk
             source := sg.source
             pfx := pfx
             rank := sg.rank
             payload := some (sg.payload.getD (Payload.original sg.keyword)) }]
        breakdown := c.breakdown.bump srcName }

/-- The per-source body of AutocompleteEnumerator.run: a fetch fault is
caught and contributes nothing (the map get-or-create of the seen set is
a no-op in this total-function model); a successful fetch folds the
per-suggestion body over the returned list. -/
def processSource (budget : ℕ) (pfx : String) (c : RunCtx) (src : AutocompleteSource) :
    RunCtx :=
  match src.fetch pfx with
  | Except.error _ => c
  | Except.ok suggestions => suggestions.foldl (processSuggestion budget pfx src.name) c

/-- The effective configuration the main loop runs with (alphabet
fallback and the max-1 floors already applied), including the injected
Store batch-write operation. -/
structure LoopConfig where
  sources : List AutocompleteSource
  alphabet : List String
  budget : ℕ
  maxDepth : ℕ
  minSuggestionsToExpand : ℕ
  save : List AutocompleteSuggestion → StoreState → Except Unit StoreState

/-- The run-scoped enumerator state between prefixes. -/
structure EnumState where
  queue : List String
  visited : List String
  uniq : List String
  combos : List (SourceName × String)
  breakdown : SourceBreakdown
  totalPersisted : ℕ
  processed : ℕ
  store : StoreState
deriving DecidableEq

/-- The fresh per-prefix context seeded from the run state. -/
def initCtx (st : EnumState) : RunCtx :=
  { uniq := st.uniq, combos := st.combos, breakdown := st.breakdown,
    pfxUnique := [], seen := ⟨[], []⟩, batch := [] }

/-- Processing of all sources for one prefix. -/
def sourcesPhase (cfg : LoopConfig) (pfx : String) (st : EnumState) : RunCtx :=
  cfg.sources.foldl (processSource cfg.budget pfx) (initCtx st)

/-- The child-enqueueing loop: one candidate per alphabet fragment
(trimmed and lowercased, empty fragments skipped, visited candidates
skipped), appended to the queue and marked visited. -/
def expandStep (pfx : String) (acc : List String × List String)
    (letter : String) : List String × List String :=
  let fragment := lowerL (jsTrimL letter.data)
  if fragment.isEmpty then acc
  else
    let candidate := pfx ++ String.mk fragment
    if candidate ∈ acc.2 then acc
    else (acc.1 ++ [candidate], acc.2 ++ [candidate])

/-- The full child-enqueueing loop over the alphabet. -/
def expandChildren (alphabet : List String) (pfx : String)
    (qv : List String × List String) : List String × List String :=
  alphabet.foldl (expandStep pfx) qv

/-- The expansion step after a prefix has been processed: children are
enqueued exactly when the prefix is shorter than the maximum depth, the
per-prefix distinct-keyword count reaches the expansion threshold, and
the budget is not yet exhausted. -/
def expandPhase (cfg : LoopConfig) (pfx : String) (pfxUniqueCount : ℕ)
    (st : EnumState) : EnumState :=
  if pfx.length < cfg.maxDepth ∧ cfg.minSuggestionsToExpand ≤ pfxUniqueCount ∧
      st.uniq.length < cfg.budget then
    let qv := expandChildren cfg.alphabet pfx (st.queue, st.visited)
    { st with queue := qv.1, visited := qv.2 }
  else st

/-- Processing of one dequeued prefix: count it, run all sources, persist
the non-empty batch as one Store write (whose fault aborts the run),
merge the run-wide sets back, and expand. -/
def processPfx (cfg : LoopConfig) (pfx : String) (st : EnumState) :
    Except Unit EnumState :=
  let st0 := { st with processed := st.processed + 1 }
  let c := sourcesPhase cfg pfx st0
  match (if c.batch.isEmpty then Except.ok st0.store else cfg.save c.batch st0.store) with
  | Except.error e => Except.error e
  | Except.ok store1 =>
    let st1 := { st0 with
      uniq := c.uniq, combos := c.combos, breakdown := c.breakdown,
      store := store1, totalPersisted := st0.totalPersisted + c.batch.length }
    Except.ok (expandPhase cfg pfx c.pfxUnique.length st1)

/-- The main loop of AutocompleteEnumerator.run. The loop terminates
because prefixes are never revisited and their depth is bounded; the fuel
argument makes the recursion structural, and runLoop fuel st is the state
after at most fuel dequeue steps, which is exactly the at-any-point-of-
the-run quantification the invariants below use. A falsy (empty)
dequeued prefix is skipped; after a processed prefix the loop stops when
the budget is reached (abandoning the queue), and the inter-prefix delay
has no observable effect on the state. -/
def runLoop (cfg : LoopConfig) : ℕ → EnumState → Except Unit EnumState
  | 0, st => Except.ok st
  | fuel + 1, st =>
    match st.queue with
    | [] => Except.ok st
    | pfx :: rest =>
      if pfx.isEmpty then runLoop cfg fuel { st with queue := rest }
      else
        match processPfx cfg pfx { st with queue := rest } with
        | Except.error e => Except.error e
        | Except.ok st1 =>
          if cfg.budget ≤ st1.uniq.length then Except.ok st1
          else runLoop cfg fuel st1

/-- The default lowercase alphabet fallback. -/
def defaultAlphabet : List String :=
  "abcdefghijklmnopqrstuvwxyz".data.map (fun c => String.mk [c])

/-- initializeQueue from src/search/search-results.ts: seed from the
initial prefixes, or from the alphabet when none are given; each seed is
trimmed, skipped when empty, and lowercased. -/
def initializeQueue (initialSeeds : List String) (alphabet : List String) : List String :=
  let seeds := if initialSeeds.length > 0 then initialSeeds else alphabet
  seeds.foldl (fun q seed =>
    let normalizedSeed := jsTrimL seed.data
    if normalizedSeed.isEmpty then q
    else q ++ [String.mk (lowerL normalizedSeed)]) []

/-- AutocompleteRunStats. -/
structure AutocompleteRunStats where
  totalPrefixesProcessed : ℕ
  uniqueKeywordsDiscovered : ℕ
  totalSuggestionsPersisted : ℕ
  sourceBreakdown : SourceBreakdown
  exhaustedBudget : Bool
deriving DecidableEq

/-- The raw configuration of one enumerator run. The source constructs
its sources from per-source enable toggles; the model receives the
constructed source list directly, together with the injected Store
write and initial Store state. -/
structure EnumConfig where
  sources : List AutocompleteSource
  alphabet : List String
  initialSeeds : List String
  budget : ℕ
  maxDepth : ℕ
  minSuggestionsToExpand : ℕ
  save : List AutocompleteSuggestion → StoreState → Except Unit StoreState
  store0 : StoreState

/-- The effective loop configuration: alphabet fallback and the max-1
floors on depth and expansion threshold, as computed at the top of run. -/
def loopConfigOf (cfg : EnumConfig) : LoopConfig :=
  { sources := cfg.sources
    alphabet := if cfg.alphabet.length > 0 then cfg.alphabet else defaultAlphabet
    budget := cfg.budget
    maxDepth := max 1 cfg.maxDepth
    minSuggestionsToExpand := max 1 cfg.minSuggestionsToExpand
    save := cfg.save }

/-- The initial run state: the seeded queue, all seeds marked visited,
and empty run-wide sets. -/
def initState (cfg : EnumConfig) : EnumState :=
  let queue := initializeQueue cfg.initialSeeds (loopConfigOf cfg).alphabet
  { queue := queue, visited := queue.dedup, uniq := [], combos := [],
    breakdown := ensureSourceBreakdown, totalPersisted := 0, processed := 0,
    store := cfg.store0 }

/-- The returned statistics of a finished run state. -/
def statsOf (budget : ℕ) (st : EnumState) : AutocompleteRunStats :=
  { totalPrefixesProcessed := st.processed
    uniqueKeywordsDiscovered := st.uniq.length
    totalSuggestionsPersisted := st.totalPersisted
    sourceBreakdown := st.breakdown
    exhaustedBudget := decide (budget ≤ st.uniq.length) }

/-- AutocompleteEnumerator.run: with no enabled source, return all-zero
statistics immediately; otherwise run the loop from the seeded state and
report the statistics. -/
def enumeratorRun (cfg : EnumConfig) (fuel : ℕ) : Except Unit AutocompleteRunStats :=
  if cfg.sources.isEmpty then
    Except.ok
      { totalPrefixesProcessed := 0
        uniqueKeywordsDiscovered := 0
        totalSuggestionsPersisted := 0
        sourceBreakdown := ensureSourceBreakdown
        exhaustedBudget := false }
  else
    (runLoop (loopConfigOf cfg) fuel (initState cfg)).map (statsOf cfg.budget)

/-- Every whitespace character of the list is the plain space. -/
def allSimpleWs (l : List Char) : Prop :=
  ∀ c ∈ l, isJsSpace c = true → c = ' '

/-- No two adjacent characters of the list are both the plain space. -/
def noDoubleSpace (l : List Char) : Prop :=
  l.Chain' (fun a b => ¬(a = ' ' ∧ b = ' '))

/-- A concrete three-listing sample: two slots of the same shop (up to
case and trailing whitespace) and one other shop. -/
def hhiDemo : List SearchListingRecord :=
  [{ position := 1, page := 1, listingId := "l1", shop := some "Shop", price := none, isAd := false },
   { position := 2, page := 1, listingId := "l2", shop := some "shop ", price := none, isAd := false },
   { position := 3, page := 1, listingId := "l3", shop := some "Other", price := none, isAd := false }]

/-- A one-listing sample with no resolvable shop. -/
def hhiDemoNone : List SearchListingRecord :=
  [{ position := 1, page := 1, listingId := "l1", shop := none, price := none, isAd := true }]

/-- A stub source that always returns two distinct suggestions. -/
def budgetDemoSource : AutocompleteSource :=
  { name := SourceName.etsy
    fetch := fun p =>
      Except.ok
        [{ keyword := "hello", source := SourceName.etsy, pfx := p, rank := 1, payload := none },
         { keyword := "world", source := SourceName.etsy, pfx := p, rank := 2, payload := none }] }

/-- A run configuration with budget 1 over that source. -/
def budgetDemoCfg : EnumConfig :=
  { sources := [budgetDemoSource]
    alphabet := ["a"]
    initialSeeds := ["a"]
    budget := 1
    maxDepth := 1
    minSuggestionsToExpand := 1
    save := fun b st => Except.ok (saveSuggestions 7 b st)
    store0 := ⟨[], []⟩ }

/-- The statistics of that run: one prefix processed, one unique keyword
(the second suggestion was discarded by the budget), budget exhausted. -/
def budgetDemoStats : AutocompleteRunStats :=
  { totalPrefixesProcessed := 1, uniqueKeywordsDiscovered := 1,
    totalSuggestionsPersisted := 1, sourceBreakdown := ⟨1, 0⟩, exhaustedBudget := true }

instance {ε α : Type} [DecidableEq ε] [DecidableEq α] : DecidableEq (Except ε α)
  | Except.error e, Except.error f =>
    if h : e = f then isTrue (by rw [h]) else isFalse (fun hc => h (by injection hc))
  | Except.error _, Except.ok _ => isFalse (fun hc => Except.noConfusion hc)
  | Except.ok _, Except.error _ => isFalse (fun hc => Except.noConfusion hc)
  | Except.ok x, Except.ok y =>
    if h : x = y then isTrue (by rw [h]) else isFalse (fun hc => h (by injection hc))

/-- An enumerator state with two visited seeds and an empty queue. -/
def c2st : EnumState :=
  { queue := [], visited := ["a", "b"], uniq := [], combos := [], breakdown := ⟨0, 0⟩,
    totalPersisted := 0, processed := 0, store := ⟨[], []⟩ }

/-- A two-letter loop configuration over the stub source. -/
def c2cfg : LoopConfig :=
  { sources := [budgetDemoSource]
    alphabet := ["a", "b"]
    budget := 10
    maxDepth := 2
    minSuggestionsToExpand := 1
    save := fun b st => Except.ok (saveSuggestions 7 b st) }

/-- A run context whose budget of one keyword is exhausted by a phrase
attributed to the etsy source. -/
def c7ctx : RunCtx :=
  { uniq := ["hello"], combos := [(SourceName.etsy, "hello")], breakdown := ⟨1, 0⟩,
    pfxUnique := [], seen := ⟨[], []⟩, batch := [] }

/-- The same phrase arriving from the google source. -/
def c7dup : AutocompleteSuggestion :=
  { keyword := "hello", source := SourceName.google, pfx := "h", rank := 3, payload := none }

/-- A phrase new to the run. -/
def c7new : AutocompleteSuggestion :=
  { keyword := "newbie", source := SourceName.google, pfx := "h", rank := 4, payload := none }

/-- A loop configuration whose Store write always faults. -/
def c10cfg : LoopConfig :=
  { sources := [budgetDemoSource]
    alphabet := ["a"]
    budget := 10
    maxDepth := 1
    minSuggestionsToExpand := 1
    save := fun _ _ => Except.error () }

/-- A source returning the same single phrase for every prefix. -/
def c6source : AutocompleteSource :=
  { name := SourceName.etsy
    fetch := fun p =>
      Except.ok [{ keyword := "hello", source := SourceName.etsy, pfx := p, rank := 1, payload := none }] }

/-- A two-seed run over that source, with ample budget and no expansion. -/
def c6cfg : EnumConfig :=
  { sources := [c6source]
    alphabet := ["a"]
    initialSeeds := ["a", "b"]
    budget := 10
    maxDepth := 1
    minSuggestionsToExpand := 5
    save := fun b st => Except.ok (saveSuggestions 7 b st)
    store0 := ⟨[], []⟩ }

/-- A store already holding the row the suggestion conflicts with. -/
def c6store : StoreState :=
  ⟨[], [{ keyword := "hello", source := SourceName.etsy, pfx := "a", rank := 1, payload := Payload.raw "old", fetchedTs := 0 }]⟩

/-- The conflicting re-save of that row. -/
def c6sg : AutocompleteSuggestion :=
  { keyword := "hello", source := SourceName.etsy, pfx := "a", rank := 5, payload := none }

/-- A single trends row for a keyword absent from the other tables. -/
def c9trend : GoogleTrendsRecord := { keyword := "mug", interest := some 5 }

/-- The default scoring weights. -/
def c9weights : WeightsConfig :=
  { review_velocity := 1, favorites := 1/2, ad_ratio := 4/5, dominance := 7/10, price_dispersion := 2/5 }

lemma char_eq_iff_toNat (c d : Char) : c = d ↔ c.toNat = d.toNat :=
  ⟨fun h => h ▸ rfl, fun h => Char.ext (UInt32.ext h)⟩

lemma space_toNat : (' ' : Char).toNat = 32 := rfl

lemma isJsSpace_space : isJsSpace ' ' = true := rfl

lemma eq_space_of_isJsSpace_of_le {c : Char} (h : isJsSpace c = true)
    (hlt : c.toNat < 160) (hgt : 13 < c.toNat ∨ c.toNat = 32) : c = ' ' := by
  rw [char_eq_iff_toNat, space_toNat]
  simp only [isJsSpace, Bool.or_eq_true, decide_eq_true_eq] at h
  omega

lemma toLower_char_cases (c : Char) :
    c.toLower = c ∨ ((65 ≤ c.toNat ∧ c.toNat ≤ 90) ∧ c.toLower.toNat = c.toNat + 32) := by
  unfold Char.toLower
  by_cases h : c.toNat ≥ 65 ∧ c.toNat ≤ 90
  · right
    refine ⟨⟨h.1, h.2⟩, ?_⟩
    simp only [h, and_self, if_true]
    have hv : (c.toNat + 32).isValidChar := by
      left
      omega
    unfold Char.ofNat
    rw [dif_pos hv]
    rfl
  · left
    simp [h]

lemma isJsSpace_eq_false_of_interval {c : Char} (h1 : 65 ≤ c.toNat) (h2 : c.toNat ≤ 122) :
    isJsSpace c = false := by
  simp only [isJsSpace, Bool.or_eq_false_iff, decide_eq_false_iff_not]
  omega

lemma isJsSpace_toLower (c : Char) : isJsSpace c.toLower = isJsSpace c := by
  rcases toLower_char_cases c with h | ⟨⟨h1, h2⟩, h3⟩
  · rw [h]
  · rw [isJsSpace_eq_false_of_interval h1 (by omega),
      isJsSpace_eq_false_of_interval (show 65 ≤ c.toLower.toNat by omega) (by omega)]

lemma toLower_of_isJsSpace {c : Char} (h : isJsSpace c = true) : c.toLower = c := by
  rcases toLower_char_cases c with heq | ⟨⟨h1, h2⟩, _⟩
  · exact heq
  · exfalso
    have := isJsSpace_eq_false_of_interval h1 (by omega)
    rw [this] at h
    exact Bool.false_ne_true h

lemma toLower_eq_space_iff (c : Char) : c.toLower = ' ' ↔ c = ' ' := by
  constructor
  · intro h
    rcases toLower_char_cases c with heq | ⟨⟨h1, h2⟩, h3⟩
    · rwa [heq] at h
    · exfalso
      have : c.toLower.toNat = 32 := by rw [h, space_toNat]
      omega
  · intro h
    rw [h]
    rfl

lemma space_ne_of_not_space {c : Char} (hc : ¬isJsSpace c = true) : c ≠ ' ' := by
  intro h
  exact hc (h ▸ isJsSpace_space)

lemma collapseWsL_allSimple (l : List Char) : allSimpleWs (collapseWsL l) := by
  induction l with
  | nil => intro c hc _; simp [collapseWsL] at hc
  | cons c rest ih =>
    simp only [collapseWsL]
    by_cases hc : isJsSpace c = true
    · rw [if_pos hc]
      by_cases hh : (collapseWsL rest).head? = some ' '
      · rw [if_pos hh]; exact ih
      · rw [if_neg hh]
        intro d hd hds
        rcases List.mem_cons.mp hd with rfl | hd
        · rfl
        · exact ih d hd hds
    · rw [if_neg hc]
      intro d hd hds
      rcases List.mem_cons.mp hd with rfl | hd
      · exact absurd hds hc
      · exact ih d hd hds

lemma collapseWsL_noDouble (l : List Char) : noDoubleSpace (collapseWsL l) := by
  induction l with
  | nil => simp [collapseWsL, noDoubleSpace]
  | cons c rest ih =>
    simp only [collapseWsL]
    by_cases hc : isJsSpace c = true
    · rw [if_pos hc]
      by_cases hh : (collapseWsL rest).head? = some ' '
      · rw [if_pos hh]; exact ih
      · rw [if_neg hh]
        refine List.chain'_cons'.mpr ⟨?_, ih⟩
        intro y hy hcontra
        exact hh (hcontra.2 ▸ Option.mem_def.mp hy)
    · rw [if_neg hc]
      refine List.chain'_cons'.mpr ⟨?_, ih⟩
      intro y _ hcontra
      exact space_ne_of_not_space hc hcontra.1

lemma allSimpleWs_dropWhile (p : Char → Bool) {l : List Char} (h : allSimpleWs l) :
    allSimpleWs (l.dropWhile p) :=
  fun c hc => h c ((List.dropWhile_sublist p).subset hc)

lemma allSimpleWs_reverse {l : List Char} (h : allSimpleWs l) : allSimpleWs l.reverse :=
  fun c hc => h c (List.mem_reverse.mp hc)

lemma noDoubleSpace_dropWhile (p : Char → Bool) {l : List Char} (h : noDoubleSpace l) :
    noDoubleSpace (l.dropWhile p) := by
  induction l with
  | nil => exact h
  | cons a l ih =>
    rw [List.dropWhile_cons]
    by_cases ha : p a = true
    · rw [if_pos ha]
      exact ih ((List.chain'_cons'.mp h).2)
    · rw [if_neg ha]
      exact h

lemma noDoubleSpace_reverse {l : List Char} (h : noDoubleSpace l) : noDoubleSpace l.reverse := by
  unfold noDoubleSpace at h ⊢
  rw [List.chain'_reverse]
  exact h.imp (fun a b hab => fun hc => hab ⟨hc.2, hc.1⟩)

lemma jsTrimL_allSimple {l : List Char} (h : allSimpleWs l) : allSimpleWs (jsTrimL l) :=
  allSimpleWs_reverse (allSimpleWs_dropWhile _ (allSimpleWs_reverse (allSimpleWs_dropWhile _ h)))

lemma jsTrimL_noDouble {l : List Char} (h : noDoubleSpace l) : noDoubleSpace (jsTrimL l) :=
  noDoubleSpace_reverse (noDoubleSpace_dropWhile _ (noDoubleSpace_reverse (noDoubleSpace_dropWhile _ h)))

lemma head?_dropWhile_not {α : Type} (p : α → Bool) (l : List α) {a : α}
    (h : (l.dropWhile p).head? = some a) : p a = false := by
  induction l with
  | nil => simp [List.dropWhile] at h
  | cons b l ih =>
    rw [List.dropWhile_cons] at h
    by_cases hb : p b = true
    · rw [if_pos hb] at h
      exact ih h
    · rw [if_neg hb] at h
      simp only [List.head?_cons, Option.some_inj] at h
      rw [← h]
      exact Bool.not_eq_true _ |>.mp hb

lemma dropWhile_eq_self_of_head {α : Type} (p : α → Bool) (l : List α)
    (h : ∀ a, l.head? = some a → p a = false) : l.dropWhile p = l := by
  cases l with
  | nil => rfl
  | cons b l =>
    rw [List.dropWhile_cons, if_neg]
    rw [h b rfl]
    simp

lemma jsTrimL_head_not {l : List Char} {a : Char} (h : (jsTrimL l).head? = some a) :
    isJsSpace a = false := by
  unfold jsTrimL at h
  rw [List.head?_reverse] at h
  set A := l.dropWhile isJsSpace with hA
  set B := A.reverse.dropWhile isJsSpace with hB
  have hBne : B ≠ [] := by
    intro hnil
    rw [hnil] at h
    simp at h
  obtain ⟨t, ht⟩ : B <:+ A.reverse := List.dropWhile_suffix _
  have hlast : A.reverse.getLast? = B.getLast? := by
    rw [← ht, List.getLast?_append]
    rw [List.getLast?_eq_getLast B hBne]
    rfl
  rw [← hlast, List.getLast?_reverse] at h
  exact head?_dropWhile_not _ _ h

lemma jsTrimL_last_not {l : List Char} {a : Char} (h : (jsTrimL l).getLast? = some a) :
    isJsSpace a = false := by
  unfold jsTrimL at h
  rw [List.getLast?_reverse] at h
  exact head?_dropWhile_not _ _ h

lemma jsTrimL_idem (l : List Char) : jsTrimL (jsTrimL l) = jsTrimL l := by
  set x := jsTrimL l with hx
  have f1 : ∀ a, x.head? = some a → isJsSpace a = false := fun a ha => jsTrimL_head_not ha
  have f2 : ∀ a, x.reverse.head? = some a → isJsSpace a = false := by
    intro a ha
    rw [List.head?_reverse] at ha
    exact jsTrimL_last_not ha
  unfold jsTrimL
  rw [dropWhile_eq_self_of_head _ _ f1, dropWhile_eq_self_of_head _ _ f2, List.reverse_reverse]

lemma collapseWsL_eq_self {l : List Char} (h1 : allSimpleWs l) (h2 : noDoubleSpace l) :
    collapseWsL l = l := by
  induction l with
  | nil => rfl
  | cons c rest ih =>
    have hrest : collapseWsL rest = rest :=
      ih (fun d hd => h1 d (List.mem_cons_of_mem _ hd)) (List.chain'_cons'.mp h2).2
    simp only [collapseWsL, hrest]
    by_cases hc : isJsSpace c = true
    · have hcs : c = ' ' := h1 c (List.mem_cons_self _ _) hc
      have hhead : rest.head? ≠ some ' ' := by
        intro hh
        exact (List.chain'_cons'.mp h2).1 ' ' hh ⟨hcs, rfl⟩
      rw [if_pos hc, if_neg hhead, hcs]
    · rw [if_neg hc]

lemma normalizeWhitespaceL_allSimple (l : List Char) : allSimpleWs (normalizeWhitespaceL l) :=
  jsTrimL_allSimple (collapseWsL_allSimple l)

lemma normalizeWhitespaceL_noDouble (l : List Char) : noDoubleSpace (normalizeWhitespaceL l) :=
  jsTrimL_noDouble (collapseWsL_noDouble l)

lemma normalizeWhitespaceL_idem (l : List Char) :
    normalizeWhitespaceL (normalizeWhitespaceL l) = normalizeWhitespaceL l := by
  unfold normalizeWhitespaceL
  rw [collapseWsL_eq_self (jsTrimL_allSimple (collapseWsL_allSimple l))
      (jsTrimL_noDouble (collapseWsL_noDouble l))]
  exact jsTrimL_idem _

lemma collapseWsL_map_toLower (l : List Char) :
    collapseWsL (l.map Char.toLower) = (collapseWsL l).map Char.toLower := by
  induction l with
  | nil => rfl
  | cons c rest ih =>
    simp only [List.map_cons, collapseWsL, ih]
    by_cases hc : isJsSpace c = true
    · rw [if_pos (by rw [isJsSpace_toLower]; exact hc), if_pos hc]
      have hcond : ((collapseWsL rest).map Char.toLower).head? = some ' ' ↔
          (collapseWsL rest).head? = some ' ' := by
        rw [List.head?_map]
        cases hh : (collapseWsL rest).head? with
        | none => simp
        | some y =>
          show some y.toLower = some ' ' ↔ some y = some ' '
          rw [Option.some_inj, Option.some_inj]
          exact toLower_eq_space_iff y
      by_cases hh : (collapseWsL rest).head? = some ' '
      · rw [if_pos (hcond.mpr hh), if_pos hh]
      · rw [if_neg (fun hx => hh (hcond.mp hx)), if_neg hh, List.map_cons]
        rfl
    · rw [if_neg (by rw [isJsSpace_toLower]; exact hc), if_neg hc, List.map_cons]

lemma jsTrimL_map_toLower (l : List Char) :
    jsTrimL (l.map Char.toLower) = (jsTrimL l).map Char.toLower := by
  have hdw : ∀ m : List Char,
      (m.map Char.toLower).dropWhile isJsSpace = (m.dropWhile isJsSpace).map Char.toLower := by
    intro m
    rw [List.dropWhile_map]
    have hfun : (isJsSpace ∘ Char.toLower) = isJsSpace := funext isJsSpace_toLower
    rw [hfun]
  unfold jsTrimL
  rw [hdw, ← List.map_reverse, hdw, ← List.map_reverse]

lemma normalizeWhitespaceL_map_toLower (l : List Char) :
    normalizeWhitespaceL (l.map Char.toLower) = (normalizeWhitespaceL l).map Char.toLower := by
  unfold normalizeWhitespaceL
  rw [collapseWsL_map_toLower, jsTrimL_map_toLower]

lemma flatMap_fixed {α : Type} (f : α → List α) :
    ∀ l : List α, (∀ c ∈ l, f c = [c]) → l.flatMap f = l := by
  intro l
  induction l with
  | nil => intro _; rfl
  | cons a l ih =>
    intro h
    rw [List.flatMap_cons, h a (List.mem_cons_self _ _),
      ih (fun c hc => h c (List.mem_cons_of_mem _ hc))]
    rfl

lemma map_fixed {α : Type} (f : α → α) :
    ∀ l : List α, (∀ c ∈ l, f c = c) → l.map f = l := by
  intro l
  induction l with
  | nil => intro _; rfl
  | cons a l ih =>
    intro h
    rw [List.map_cons, h a (List.mem_cons_self _ _),
      ih (fun c hc => h c (List.mem_cons_of_mem _ hc))]

lemma nfkcChar_of_ne {c : Char} (h : c ≠ '½') : nfkcChar c = [c] := by
  unfold nfkcChar
  rw [if_neg h]

lemma normalizeKeyword_some_elim {s out : String} (h : normalizeKeyword s = some out) :
    out.data = lowerL (nfkcL (normalizeWhitespaceL
      ((normalizeWhitespaceL s.data).map (fun c => if isKeptChar c then c else ' ')))) ∧
    2 ≤ out.data.length := by
  simp only [normalizeKeyword] at h
  by_cases h1 : (normalizeWhitespaceL s.data).isEmpty = true
  · rw [if_pos h1] at h
    exact absurd h (by simp)
  · rw [if_neg h1] at h
    by_cases h2 : (normalizeWhitespaceL ((normalizeWhitespaceL s.data).map
        (fun c => if isKeptChar c then c else ' '))).isEmpty = true
    · rw [if_pos h2] at h
      exact absurd h (by simp)
    · rw [if_neg h2] at h
      by_cases h3 : (lowerL (nfkcL (normalizeWhitespaceL ((normalizeWhitespaceL s.data).map
          (fun c => if isKeptChar c then c else ' '))))).length < 2
      · rw [if_pos h3] at h
        exact absurd h (by simp)
      · rw [if_neg h3] at h
        have hout := Option.some_inj.mp h
        constructor
        · rw [← hout]
        · rw [← hout]
          show 2 ≤ (lowerL (nfkcL (normalizeWhitespaceL ((normalizeWhitespaceL s.data).map
            (fun c => if isKeptChar c then c else ' '))))).length
          omega

/-- C8 (amended): the phrase normalizer normalizeKeyword is not
idempotent on every string, but it is idempotent on every normalized
output all of whose characters are left unchanged by the three
character-level passes: kept by the word-class cleaning, fixed by NFKC,
and fixed by lowercasing (in particular any phrase of ASCII lowercase
letters, digits, spaces, hyphens and apostrophes). -/
theorem normalizeKeyword_idem_of_clean (s out : String)
    (h : normalizeKeyword s = some out)
    (hclean : ∀ c ∈ out.data, isKeptChar c = true ∧ nfkcChar c = [c] ∧ c.toLower = c) :
    normalizeKeyword out = some out := by
  obtain ⟨hdata, hlen⟩ := normalizeKeyword_some_elim h
  set w := normalizeWhitespaceL ((normalizeWhitespaceL s.data).map
    (fun c => if isKeptChar c then c else ' ')) with hw
  have hnfkcw : ∀ c ∈ w, nfkcChar c = [c] := by
    intro c hc
    by_cases hhalf : c = '½'
    · exfalso
      have hmem : '⁄' ∈ nfkcL w :=
        List.mem_flatMap.mpr ⟨c, hc, by rw [hhalf]; simp [nfkcChar]⟩
      have hmem2 : '⁄' ∈ out.data := by
        rw [hdata]
        unfold lowerL
        exact List.mem_map.mpr ⟨'⁄', hmem, by decide⟩
      exact absurd ((hclean '⁄' hmem2).1) (by decide)
    · exact nfkcChar_of_ne hhalf
  have hw_eq : nfkcL w = w := flatMap_fixed _ w hnfkcw
  have hout : out.data = w.map Char.toLower := by
    rw [hdata]
    unfold lowerL
    rw [hw_eq]
  have hNWw : normalizeWhitespaceL w = w := by
    rw [hw]
    exact normalizeWhitespaceL_idem _
  have hNW : normalizeWhitespaceL out.data = out.data := by
    rw [hout, normalizeWhitespaceL_map_toLower, hNWw]
  have hne : out.data.isEmpty = false := by
    cases hd : out.data with
    | nil => rw [hd] at hlen; simp at hlen
    | cons a l => rfl
  have hcleaned : out.data.map (fun c => if isKeptChar c then c else ' ') = out.data :=
    map_fixed _ _ (fun c hc => by rw [if_pos ((hclean c hc).1)])
  have hnfkc_out : nfkcL out.data = out.data :=
    flatMap_fixed _ _ (fun c hc => (hclean c hc).2.1)
  have hlower_out : lowerL out.data = out.data :=
    map_fixed _ _ (fun c hc => (hclean c hc).2.2)
  simp only [normalizeKeyword, hNW, hcleaned, hnfkc_out, hlower_out, hne]
  rw [if_neg (by simp), if_neg (by simp), if_neg (by omega)]

/-- C8 counterexample: normalizing the already-normalized output of the
phrase U+00BD U+00BD changes it again, because NFKC introduces the
fraction slash U+2044 which the word-class cleaning pass then replaces by
a space. -/
theorem normalizeKeyword_not_idempotent :
    normalizeKeyword "½½" = some "1⁄21⁄2" ∧
    normalizeKeyword "1⁄21⁄2" = some "1 21 2" ∧
    ("1 21 2" : String) ≠ "1⁄21⁄2" := by
  refine ⟨?_, ?_, ?_⟩ <;> decide

/-- C8 witness: the amended idempotence theorem applied to a concrete
clean phrase. -/
theorem normalizeKeyword_idem_of_clean_witness :
    normalizeKeyword "Hello  World" = some "hello world" ∧
    normalizeKeyword "hello world" = some "hello world" := by
  have h1 : normalizeKeyword "Hello  World" = some "hello world" := by decide
  exact ⟨h1, normalizeKeyword_idem_of_clean "Hello  World" "hello world" h1 (by decide)⟩

lemma median_isSome {s : List ℚ} (h : s ≠ []) : ∃ m, median s = some m := by
  unfold median
  rw [if_neg (by simpa using h)]
  by_cases h2 : (sortLe numericAsc s).length % 2 = 0
  · rw [if_pos h2]
    exact ⟨_, rfl⟩
  · rw [if_neg h2]
    exact ⟨_, rfl⟩

/-- C4 (amended): robust normalization returns 0 for every non-finite
input and for an empty population series; for a non-empty series it
returns (v - median(S)) / spread(S) with spread the IQR, falling back to
the MAD when the IQR is unavailable, and returns the raw value v
unchanged exactly when that spread is zero. (As the source states the
empty-series case: normalize(v, empty) = 0, not v.) -/
theorem robustNormalize_characterization :
    (∀ s : List ℚ, robustNormalize JsNum.nan s = 0 ∧ robustNormalize JsNum.posInf s = 0 ∧
      robustNormalize JsNum.negInf s = 0) ∧
    (∀ v : ℚ, robustNormalize (JsNum.num v) [] = 0) ∧
    (∀ (v : ℚ) (s : List ℚ), s ≠ [] →
      ∃ med, median s = some med ∧
        robustNormalize (JsNum.num v) s =
          (if (iqr s).getD ((medianAbsoluteDeviation s).getD 1) = 0 then v
           else (v - med) / (iqr s).getD ((medianAbsoluteDeviation s).getD 1))) := by
  refine ⟨fun s => ⟨rfl, rfl, rfl⟩, fun v => rfl, ?_⟩
  intro v s hs
  obtain ⟨m, hm⟩ := median_isSome hs
  refine ⟨m, hm, ?_⟩
  simp only [robustNormalize, hm]
  rw [if_neg (by simpa using hs)]

/-- C4 counterexample: on an empty population series the normalizer
returns 0, not the raw value (here 5). -/
theorem robustNormalize_empty_series_not_raw :
    robustNormalize (JsNum.num 5) [] = 0 ∧ (0 : ℚ) ≠ 5 := by
  constructor
  · rfl
  · norm_num

/-- C4 witness: the characterization evaluated on the series 1, 2, 3, 4,
100 (median 3, IQR 2) at value 100. -/
theorem robustNormalize_characterization_witness :
    median [1, 2, 3, 4, 100] = some 3 ∧
    robustNormalize (JsNum.num 100) [1, 2, 3, 4, 100] = 97 / 2 := by
  obtain ⟨med, hmed, hval⟩ :=
    robustNormalize_characterization.2.2 100 [1, 2, 3, 4, 100] (by simp)
  have hm3 : median [1, 2, 3, 4, 100] = some 3 := by
    norm_num [median, sortLe, insertLe, numericAsc]
  have hmm : med = 3 := by
    rw [hmed] at hm3
    exact Option.some_inj.mp hm3
  have hspread : (iqr [1, 2, 3, 4, 100]).getD
      ((medianAbsoluteDeviation [1, 2, 3, 4, 100]).getD 1) = 2 := by
    norm_num [iqr, percentile, sortLe, insertLe, numericAsc, jsFloor, jsCeil, Int.toNat]
  refine ⟨hm3, ?_⟩
  rw [hval, hspread, if_neg (by norm_num), hmm]
  norm_num

/-- C3: every snapshot satisfies opportunityScore = demandScore divided
by (1 + max(0, competitionScore)); for every rational c the denominator
1 + max(0, c) is at least 1, and the opportunity score is bounded in
magnitude by the demand score (the finiteness transfer: in the exact
rational model a division by a denominator of at least 1 never leaves
the finite range of its numerator). -/
theorem computeSnapshot_opportunity_formula (log1p : ℚ → ℚ) (w : WeightsConfig) (now : ℕ)
    (k : String) (m : AggregatedMetrics) (s : SeriesBundle) :
    (computeSnapshot log1p w now k m s).opportunityScore =
      (computeSnapshot log1p w now k m s).demandScore /
        (1 + max 0 (computeSnapshot log1p w now k m s).competitionScore) ∧
    (∀ c : ℚ, 1 ≤ 1 + max 0 c) ∧
    1 ≤ 1 + max 0 (computeSnapshot log1p w now k m s).competitionScore ∧
    |(computeSnapshot log1p w now k m s).opportunityScore| ≤
      |(computeSnapshot log1p w now k m s).demandScore| := by
  have hden : ∀ c : ℚ, 1 ≤ 1 + max 0 c := by
    intro c
    have := le_max_left (0 : ℚ) c
    linarith
  refine ⟨rfl, hden, hden _, ?_⟩
  have hform : (computeSnapshot log1p w now k m s).opportunityScore =
      (computeSnapshot log1p w now k m s).demandScore /
        (1 + max 0 (computeSnapshot log1p w now k m s).competitionScore) := rfl
  rw [hform, abs_div]
  set d := (computeSnapshot log1p w now k m s).demandScore
  set c := (computeSnapshot log1p w now k m s).competitionScore
  have h1 : (0 : ℚ) ≤ max 0 c := le_max_left 0 c
  have h2 : |1 + max 0 c| = 1 + max 0 c := abs_of_pos (by linarith)
  rw [h2]
  exact div_le_self (abs_nonneg d) (by linarith)

lemma list_sum_div (l : List ℚ) (t : ℚ) : (l.map (fun x => x / t)).sum = l.sum / t := by
  induction l with
  | nil => simp
  | cons a r ih => simp [ih, add_div]

lemma list_sum_natCast {α : Type} (l : List α) (g : α → ℕ) :
    (l.map (fun x => ((g x : ℕ) : ℚ))).sum = (((l.map g).sum : ℕ) : ℚ) := by
  induction l with
  | nil => simp
  | cons a r ih => simp [ih]

lemma sum_sq_le_sq_sum : ∀ l : List ℚ, (∀ x ∈ l, 0 ≤ x) →
    (l.map (fun x => x * x)).sum ≤ l.sum * l.sum := by
  intro l
  induction l with
  | nil => intro _; simp
  | cons a t ih =>
    intro h
    have ha : 0 ≤ a := h a (List.mem_cons_self _ _)
    have ht : ∀ x ∈ t, 0 ≤ x := fun x hx => h x (List.mem_cons_of_mem _ hx)
    have hts : 0 ≤ t.sum := List.sum_nonneg ht
    have iht := ih ht
    simp only [List.map_cons, List.sum_cons]
    nlinarith

lemma sum_sq_eq_sq_sum_subsingleton : ∀ l : List ℚ, (∀ x ∈ l, 0 < x) →
    (l.map (fun x => x * x)).sum = l.sum * l.sum → l.length ≤ 1 := by
  intro l
  induction l with
  | nil => intro _ _; simp
  | cons a t _ =>
    intro hpos heq
    by_cases htnil : t = []
    · subst htnil
      simp
    · exfalso
      have hsq := sum_sq_le_sq_sum t (fun x hx => (hpos x (List.mem_cons_of_mem _ hx)).le)
      have hts : 0 < t.sum := List.sum_pos t (fun x hx => hpos x (List.mem_cons_of_mem _ hx)) htnil
      have ha : 0 < a := hpos a (List.mem_cons_self _ _)
      simp only [List.map_cons, List.sum_cons] at heq
      nlinarith

lemma list_map_const_sum_nat {α : Type} (l : List α) (c : ℕ) :
    (l.map (fun _ => c)).sum = l.length * c := by
  induction l with
  | nil => simp
  | cons a r ih =>
    simp only [List.map_cons, List.sum_cons, List.length_cons, ih]
    ring

lemma list_map_const_sum_rat {α : Type} (l : List α) (c : ℚ) :
    (l.map (fun _ => c)).sum = (l.length : ℚ) * c := by
  induction l with
  | nil => simp
  | cons a r ih =>
    simp only [List.map_cons, List.sum_cons, List.length_cons, ih]
    push_cast
    ring

lemma nodup_all_eq {α : Type} {l : List α} {a : α} (hnd : l.Nodup) (hne : l ≠ [])
    (hall : ∀ x ∈ l, x = a) : l = [a] := by
  cases l with
  | nil => exact absurd rfl hne
  | cons x t =>
    have hx : x = a := hall x (List.mem_cons_self _ _)
    cases t with
    | nil => rw [hx]
    | cons y u =>
      exfalso
      have hy : y = a := hall y (List.mem_cons_of_mem _ (List.mem_cons_self _ _))
      have hxy : x ∉ y :: u := (List.nodup_cons.mp hnd).1
      exact hxy (by rw [hx, ← hy]; exact List.mem_cons_self _ _)

/-- C5: on a non-empty listing sample the dominance index is absent when
no shop identity resolves; when at least one resolves it satisfies
0 at-most HHI at-most 1, equals 1 exactly when a single shop occupies
every sampled slot, and equals 1/n when every slot resolves and the n
distinct shops hold equally many slots. -/
theorem computeDominanceIndex_hhi :
    (∀ listings : List SearchListingRecord,
      listings.filterMap (fun l => resolveShop l.shop) = [] →
      computeDominanceIndex listings = none) ∧
    (∀ listings : List SearchListingRecord, listings ≠ [] →
      listings.filterMap (fun l => resolveShop l.shop) ≠ [] →
      ∃ h, computeDominanceIndex listings = some h ∧
        0 ≤ h ∧ h ≤ 1 ∧
        (h = 1 ↔ ∃ s, (listings.filterMap (fun l => resolveShop l.shop)).count s =
          listings.length) ∧
        (∀ c : ℕ, 0 < c →
          (∀ s ∈ (listings.filterMap (fun l => resolveShop l.shop)).dedup,
            (listings.filterMap (fun l => resolveShop l.shop)).count s = c) →
          (listings.filterMap (fun l => resolveShop l.shop)).length = listings.length →
          h = 1 / (((listings.filterMap (fun l => resolveShop l.shop)).dedup.length : ℕ) : ℚ))) := by
  constructor
  · intro listings hres
    unfold computeDominanceIndex
    by_cases hne : listings.isEmpty = true
    · rw [if_pos hne]
    · rw [if_neg hne, hres]
      rfl
  · intro listings hne hres
    have hlpos : 0 < listings.length := List.length_pos.mpr hne
    refine ⟨((listings.filterMap (fun l => resolveShop l.shop)).dedup.map (fun s =>
      let share := (((listings.filterMap (fun l => resolveShop l.shop)).count s : ℕ) : ℚ) /
        ((listings.length : ℕ) : ℚ)
      share * share)).sum, ?_, ?_⟩
    · unfold computeDominanceIndex
      rw [if_neg (by simpa using hne), if_neg (by simpa using hres)]
    · set shops := listings.filterMap (fun l => resolveShop l.shop) with hshopsdef
      set groups := shops.dedup with hgroupsdef
      set T : ℚ := ((listings.length : ℕ) : ℚ) with hTdef
      have hTpos : 0 < T := by
        rw [hTdef]
        exact_mod_cast hlpos
      have hgne : groups ≠ [] := by
        obtain ⟨s, hs⟩ := List.exists_mem_of_ne_nil shops hres
        intro hnil
        have hmem : s ∈ groups := List.mem_dedup.mpr hs
        rw [hnil] at hmem
        exact absurd hmem (List.not_mem_nil s)
      -- the share list
      set S := groups.map (fun s => ((shops.count s : ℕ) : ℚ) / T) with hSdef
      have hsum_counts : (groups.map (fun s => shops.count s)).sum = shops.length :=
        List.sum_map_count_dedup_eq_length shops
      have hS_sum : S.sum = ((shops.length : ℕ) : ℚ) / T := by
        rw [hSdef]
        have h1 : groups.map (fun s => ((shops.count s : ℕ) : ℚ) / T) =
            (groups.map (fun s => ((shops.count s : ℕ) : ℚ))).map (fun x => x / T) := by
          rw [List.map_map]
          rfl
        rw [h1, list_sum_div, list_sum_natCast, hsum_counts]
      have hlen_le : shops.length ≤ listings.length := List.length_filterMap_le _ _
      have hS_le1 : S.sum ≤ 1 := by
        rw [hS_sum]
        rw [div_le_one hTpos, hTdef]
        exact_mod_cast hlen_le
      have hS_pos : ∀ x ∈ S, 0 < x := by
        intro x hx
        rw [hSdef] at hx
        obtain ⟨s, hsg, rfl⟩ := List.mem_map.mp hx
        have hcount : 0 < shops.count s := List.count_pos_iff.mpr (List.mem_dedup.mp hsg)
        exact div_pos (by exact_mod_cast hcount) hTpos
      have hS_nonneg : ∀ x ∈ S, 0 ≤ x := fun x hx => (hS_pos x hx).le
      have hS_sum_nonneg : 0 ≤ S.sum := List.sum_nonneg hS_nonneg
      have h_eq : ((groups.map (fun s =>
          let share := ((shops.count s : ℕ) : ℚ) / T
          share * share)).sum) = (S.map (fun x => x * x)).sum := by
        rw [hSdef, List.map_map]
        rfl
      rw [h_eq]
      have hsq_le : (S.map (fun x => x * x)).sum ≤ S.sum * S.sum :=
        sum_sq_le_sq_sum S hS_nonneg
      refine ⟨List.sum_nonneg (fun x hx => ?_), ?_, ?_, ?_⟩
      · obtain ⟨y, _, rfl⟩ := List.mem_map.mp hx
        exact mul_self_nonneg y
      · calc (S.map (fun x => x * x)).sum ≤ S.sum * S.sum := hsq_le
          _ ≤ 1 * 1 := by nlinarith
          _ = 1 := by norm_num
      · constructor
        · intro hone
          have hSS : S.sum * S.sum = 1 := by nlinarith
          have hSsum1 : S.sum = 1 := by nlinarith
          have hsub : S.length ≤ 1 :=
            sum_sq_eq_sq_sum_subsingleton S hS_pos (by rw [hone, hSS])
          have hSlen : S.length = groups.length := by
            rw [hSdef, List.length_map]
          have hglen : groups.length = 1 := by
            have hgpos : 0 < groups.length := List.length_pos.mpr hgne
            omega
          obtain ⟨s, hgs⟩ := List.length_eq_one.mp hglen
          refine ⟨s, ?_⟩
          have hS_one : S = [((shops.count s : ℕ) : ℚ) / T] := by
            rw [hSdef, hgs]
            rfl
          have : ((shops.count s : ℕ) : ℚ) / T = 1 := by
            rw [hS_one] at hSsum1
            simpa using hSsum1
          have hcT : ((shops.count s : ℕ) : ℚ) = T := by
            field_simp at this
            exact this
          rw [hTdef] at hcT
          exact_mod_cast hcT
        · rintro ⟨s0, hc⟩
          have hcle : shops.count s0 ≤ shops.length := List.count_le_length _ _
          have hsl_eq : shops.length = listings.length := by omega
          have hc_len : shops.count s0 = shops.length := by omega
          have hall : ∀ x ∈ shops, s0 = x := List.count_eq_length.mp hc_len
          have hgroups_one : groups = [s0] := by
            apply nodup_all_eq (List.nodup_dedup shops) hgne
            intro x hx
            exact (hall x (List.mem_dedup.mp hx)).symm
          have hS_one : S = [((shops.count s0 : ℕ) : ℚ) / T] := by
            rw [hSdef, hgroups_one]
            rfl
          rw [hS_one]
          have hcT : ((shops.count s0 : ℕ) : ℚ) = T := by
            rw [hc, hTdef]
          simp only [List.map_cons, List.map_nil, List.sum_cons, List.sum_nil]
          rw [hcT, div_self (ne_of_gt hTpos)]
          norm_num
      · intro c hcpos hallc hlen
        have hn_pos : 0 < groups.length := List.length_pos.mpr hgne
        have hcounts_const : groups.map (fun s => shops.count s) = groups.map (fun _ => c) :=
          List.map_congr_left (fun s hs => hallc s hs)
        have hnc : groups.length * c = shops.length := by
          rw [← hsum_counts, hcounts_const, list_map_const_sum_nat]
        have hTnc : T = ((groups.length * c : ℕ) : ℚ) := by
          rw [hTdef, ← hlen, ← hnc]
        have hmap_const : S.map (fun x => x * x) =
            groups.map (fun _ => (((c : ℕ) : ℚ) / T) * (((c : ℕ) : ℚ) / T)) := by
          rw [hSdef, List.map_map]
          apply List.map_congr_left
          intro s hs
          simp only [Function.comp]
          rw [hallc s hs]
        rw [hmap_const, list_map_const_sum_rat, hTnc]
        have hc0 : ((c : ℕ) : ℚ) ≠ 0 := Nat.cast_ne_zero.mpr hcpos.ne.symm
        have hn0 : ((groups.length : ℕ) : ℚ) ≠ 0 := Nat.cast_ne_zero.mpr hn_pos.ne.symm
        push_cast
        field_simp
        ring

/-- C5 witness: the dominance theorem evaluated on the concrete samples:
shares 2/3 and 1/3 give HHI 5/9 within the proved bounds, and the
unresolvable sample gives null. -/
theorem computeDominanceIndex_hhi_witness :
    computeDominanceIndex hhiDemo = some (5 / 9) ∧ (5 / 9 : ℚ) ≤ 1 ∧ (0 : ℚ) ≤ 5 / 9 ∧
    computeDominanceIndex hhiDemoNone = none := by
  obtain ⟨h, hsome, h0, hle, _, _⟩ :=
    computeDominanceIndex_hhi.2 hhiDemo (by decide) (by decide)
  have hshops : hhiDemo.filterMap (fun l => resolveShop l.shop) = ["shop", "shop", "other"] := by
    decide
  have hval : computeDominanceIndex hhiDemo = some (5 / 9) := by
    unfold computeDominanceIndex
    rw [if_neg (by decide)]
    rw [hshops]
    rw [if_neg (by decide)]
    have hdedup : (["shop", "shop", "other"] : List String).dedup = ["shop", "other"] := by decide
    have hc1 : (["shop", "shop", "other"] : List String).count "shop" = 2 := by decide
    have hc2 : (["shop", "shop", "other"] : List String).count "other" = 1 := by decide
    rw [hdedup]
    simp only [List.map_cons, List.map_nil, List.sum_cons, List.sum_nil, hc1, hc2]
    norm_num [hhiDemo]
  have hh : h = 5 / 9 := by
    rw [hval] at hsome
    exact (Option.some_inj.mp hsome).symm
  exact ⟨hval, hh ▸ hle, hh ▸ h0,
    computeDominanceIndex_hhi.1 hhiDemoNone (by decide)⟩

lemma foldl_preserve {σ α : Type} (P : σ → Prop) (f : σ → α → σ)
    (hf : ∀ c a, P c → P (f c a)) : ∀ (l : List α) (c : σ), P c → P (l.foldl f c) := by
  intro l
  induction l with
  | nil => intro c h; exact h
  | cons a t ih => intro c h; exact ih _ (hf c a h)

lemma processSuggestion_uniq_cases (budget : ℕ) (pfx : String) (srcName : SourceName)
    (c : RunCtx) (sg : AutocompleteSuggestion) :
    (processSuggestion budget pfx srcName c sg).uniq = c.uniq ∨
    (c.uniq.length < budget ∧ ∃ nk, nk ∉ c.uniq ∧
      (processSuggestion budget pfx srcName c sg).uniq = nk :: c.uniq) := by
  cases hsan : sanitizeKeyword sg.keyword with
  | none =>
    left
    simp [processSuggestion, hsan]
  | some nk =>
    by_cases h1 : nk ∈ c.seen.get srcName
    · left
      simp [processSuggestion, hsan, h1]
    · by_cases h2 : nk ∉ c.uniq ∧ budget ≤ c.uniq.length
      · left
        simp only [processSuggestion, hsan]
        rw [if_neg h1, if_pos h2]
      · by_cases h4 : nk ∈ c.uniq
        · left
          simp only [processSuggestion, hsan]
          rw [if_neg h1, if_neg h2]
          by_cases h3 : (sg.source, nk) ∈ c.combos
          · rw [if_pos h3]
            exact List.insert_of_mem h4
          · rw [if_neg h3]
            exact List.insert_of_mem h4
        · right
          push_neg at h2
          refine ⟨h2 h4, nk, h4, ?_⟩
          simp only [processSuggestion, hsan]
          rw [if_neg h1, if_neg (by push_neg; intro _; exact h2 h4)]
          by_cases h3 : (sg.source, nk) ∈ c.combos
          · rw [if_pos h3]
            exact List.insert_of_not_mem h4
          · rw [if_neg h3]
            exact List.insert_of_not_mem h4

lemma processSuggestion_uniq_le {budget : ℕ} {pfx : String} {srcName : SourceName}
    {c : RunCtx} {sg : AutocompleteSuggestion} (h : c.uniq.length ≤ budget) :
    (processSuggestion budget pfx srcName c sg).uniq.length ≤ budget := by
  rcases processSuggestion_uniq_cases budget pfx srcName c sg with heq | ⟨hlt, nk, _, heq⟩
  · rw [heq]
    exact h
  · rw [heq]
    simp only [List.length_cons]
    omega

lemma processSource_uniq_le {budget : ℕ} {pfx : String} {c : RunCtx}
    {src : AutocompleteSource} (h : c.uniq.length ≤ budget) :
    (processSource budget pfx c src).uniq.length ≤ budget := by
  unfold processSource
  cases src.fetch pfx with
  | error e => exact h
  | ok suggestions =>
    exact foldl_preserve (fun c => c.uniq.length ≤ budget) _
      (fun c a hc => processSuggestion_uniq_le hc) suggestions c h

lemma sourcesPhase_uniq_le {cfg : LoopConfig} {pfx : String} {st : EnumState}
    (h : st.uniq.length ≤ cfg.budget) :
    (sourcesPhase cfg pfx st).uniq.length ≤ cfg.budget := by
  unfold sourcesPhase
  exact foldl_preserve (fun c => c.uniq.length ≤ cfg.budget) _
    (fun c a hc => processSource_uniq_le hc) cfg.sources (initCtx st) h

lemma expandPhase_uniq (cfg : LoopConfig) (pfx : String) (cnt : ℕ) (st : EnumState) :
    (expandPhase cfg pfx cnt st).uniq = st.uniq := by
  unfold expandPhase
  by_cases hc : pfx.length < cfg.maxDepth ∧ cfg.minSuggestionsToExpand ≤ cnt ∧
      st.uniq.length < cfg.budget
  · rw [if_pos hc]
  · rw [if_neg hc]

lemma processPfx_ok_uniq (cfg : LoopConfig) (pfx : String) (st st1 : EnumState)
    (hok : processPfx cfg pfx st = Except.ok st1) :
    st1.uniq = (sourcesPhase cfg pfx st).uniq := by
  simp only [processPfx] at hok
  rcases hsave : (if (sourcesPhase cfg pfx { st with processed := st.processed + 1 }).batch.isEmpty
      then Except.ok st.store
      else cfg.save (sourcesPhase cfg pfx { st with processed := st.processed + 1 }).batch st.store)
    with e | store1
  · rw [hsave] at hok
    exact absurd hok (by simp)
  · rw [hsave] at hok
    dsimp only at hok
    have hst := Except.ok.inj hok
    rw [← hst, expandPhase_uniq]
    rfl

lemma processPfx_ok_uniq_le {cfg : LoopConfig} {pfx : String} {st st1 : EnumState}
    (h : st.uniq.length ≤ cfg.budget) (hok : processPfx cfg pfx st = Except.ok st1) :
    st1.uniq.length ≤ cfg.budget := by
  rw [processPfx_ok_uniq cfg pfx st st1 hok]
  exact sourcesPhase_uniq_le h

lemma runLoop_ok_uniq_le (cfg : LoopConfig) :
    ∀ (fuel : ℕ) (st st1 : EnumState), st.uniq.length ≤ cfg.budget →
      runLoop cfg fuel st = Except.ok st1 → st1.uniq.length ≤ cfg.budget := by
  intro fuel
  induction fuel with
  | zero =>
    intro st st1 h hok
    simp only [runLoop] at hok
    rw [← Except.ok.inj hok]
    exact h
  | succ n ih =>
    intro st st1 h hok
    simp only [runLoop] at hok
    cases hq : st.queue with
    | nil =>
      rw [hq] at hok
      rw [← Except.ok.inj hok]
      exact h
    | cons pfx rest =>
      rw [hq] at hok
      dsimp only at hok
      by_cases hp : pfx.isEmpty = true
      · rw [if_pos hp] at hok
        exact ih { st with queue := rest } st1 h hok
      · rw [if_neg hp] at hok
        rcases hpp : processPfx cfg pfx { st with queue := rest } with e | st2
        · rw [hpp] at hok
          exact absurd hok (by simp)
        · rw [hpp] at hok
          dsimp only at hok
          have h2 : st2.uniq.length ≤ cfg.budget :=
            processPfx_ok_uniq_le
              (show ({ st with queue := rest } : EnumState).uniq.length ≤ cfg.budget from h) hpp
          by_cases hb : cfg.budget ≤ st2.uniq.length
          · rw [if_pos hb] at hok
            rw [← Except.ok.inj hok]
            exact h2
          · rw [if_neg hb] at hok
            exact ih _ _ h2 hok

/-- C1: the budget invariant. The run-wide unique set never exceeds the
configured budget at any point of the run (any number of loop steps from
any state within budget), a phrase new to the unique set is discarded
outright once the set has at least budget members, and the returned
uniqueKeywordsDiscovered of a completed run with positive budget is at
most the budget. -/
theorem enumeratorRun_budget_invariant :
    (∀ (cfg : LoopConfig) (fuel : ℕ) (st st1 : EnumState),
      st.uniq.length ≤ cfg.budget → runLoop cfg fuel st = Except.ok st1 →
      st1.uniq.length ≤ cfg.budget) ∧
    (∀ (budget : ℕ) (pfx : String) (srcName : SourceName) (c : RunCtx)
      (sg : AutocompleteSuggestion) (nk : String),
      sanitizeKeyword sg.keyword = some nk → nk ∉ c.uniq → budget ≤ c.uniq.length →
      processSuggestion budget pfx srcName c sg = c) ∧
    (∀ (cfg : EnumConfig) (fuel : ℕ) (stats : AutocompleteRunStats),
      0 < cfg.budget → enumeratorRun cfg fuel = Except.ok stats →
      stats.uniqueKeywordsDiscovered ≤ cfg.budget) := by
  refine ⟨fun cfg fuel st st1 h hok => runLoop_ok_uniq_le cfg fuel st st1 h hok, ?_, ?_⟩
  · intro budget pfx srcName c sg nk hsan hnew hexh
    simp only [processSuggestion, hsan]
    by_cases h1 : nk ∈ c.seen.get srcName
    · rw [if_pos h1]
    · rw [if_neg h1, if_pos ⟨hnew, hexh⟩]
  · intro cfg fuel stats _ hok
    unfold enumeratorRun at hok
    by_cases hs : cfg.sources.isEmpty = true
    · rw [if_pos hs] at hok
      rw [← Except.ok.inj hok]
      exact Nat.zero_le _
    · rw [if_neg hs] at hok
      rcases hrl : runLoop (loopConfigOf cfg) fuel (initState cfg) with e | st1
      · rw [hrl] at hok
        exact absurd hok (by simp [Except.map])
      · rw [hrl] at hok
        have hst : statsOf cfg.budget st1 = stats := by
          simpa [Except.map] using hok
        have hle : st1.uniq.length ≤ (loopConfigOf cfg).budget :=
          runLoop_ok_uniq_le _ fuel _ st1 (Nat.zero_le _) hrl
        rw [← hst]
        exact hle

/-- C1 witness: the budget invariant applied to the concrete budget-1 run. -/
theorem enumeratorRun_budget_invariant_witness :
    enumeratorRun budgetDemoCfg 5 = Except.ok budgetDemoStats ∧
    budgetDemoStats.uniqueKeywordsDiscovered ≤ budgetDemoCfg.budget := by
  have h : enumeratorRun budgetDemoCfg 5 = Except.ok budgetDemoStats := by decide
  exact ⟨h, enumeratorRun_budget_invariant.2.2 budgetDemoCfg 5 budgetDemoStats (by decide) h⟩

lemma expandStep_split (pfx : String) (a : String) (q v : List String) :
    expandStep pfx (q, v) a = (q ++ (expandStep pfx ([], v) a).1, (expandStep pfx ([], v) a).2) := by
  unfold expandStep
  dsimp only
  by_cases hf : (lowerL (jsTrimL a.data)).isEmpty = true
  · rw [if_pos hf, if_pos hf]
    simp
  · rw [if_neg hf, if_neg hf]
    by_cases hv : (pfx ++ String.mk (lowerL (jsTrimL a.data))) ∈ v
    · rw [if_pos hv, if_pos hv]
      simp
    · rw [if_neg hv, if_neg hv]
      simp

lemma expandChildren_split (pfx : String) :
    ∀ (alphabet : List String) (q v : List String),
      expandChildren alphabet pfx (q, v) =
        (q ++ (expandChildren alphabet pfx ([], v)).1, (expandChildren alphabet pfx ([], v)).2) := by
  intro alphabet
  induction alphabet with
  | nil =>
    intro q v
    simp [expandChildren]
  | cons a t ih =>
    intro q v
    unfold expandChildren
    rw [List.foldl_cons, List.foldl_cons, expandStep_split]
    have h1 := ih (q ++ (expandStep pfx ([], v) a).1) (expandStep pfx ([], v) a).2
    have h2 := ih (expandStep pfx ([], v) a).1 (expandStep pfx ([], v) a).2
    unfold expandChildren at h1 h2
    rw [h1]
    have heta : expandStep pfx ([], v) a =
        ((expandStep pfx ([], v) a).1, (expandStep pfx ([], v) a).2) := rfl
    rw [heta] at h2 ⊢
    rw [h2]
    simp [List.append_assoc]

/-- C2: the expansion rule. For every processed prefix, the queue is
extended exactly by the fresh (trimmed, lowercased, non-empty,
not-yet-visited) children prefix + fragment, and this happens if and only
if the prefix length is below the effective maximum depth, the number of
distinct keywords accepted for this prefix reaches the expansion
threshold, and the unique-keyword budget is not exhausted at expansion
time. -/
theorem processPfx_expansion_rule (cfg : LoopConfig) (pfx : String) (st st1 : EnumState)
    (hok : processPfx cfg pfx st = Except.ok st1) :
    st1.queue = st.queue ++
      (if pfx.length < cfg.maxDepth ∧
          cfg.minSuggestionsToExpand ≤ (sourcesPhase cfg pfx st).pfxUnique.length ∧
          (sourcesPhase cfg pfx st).uniq.length < cfg.budget then
        (expandChildren cfg.alphabet pfx ([], st.visited)).1
      else []) := by
  simp only [processPfx] at hok
  rcases hsave : (if (sourcesPhase cfg pfx { st with processed := st.processed + 1 }).batch.isEmpty
      then Except.ok st.store
      else cfg.save (sourcesPhase cfg pfx { st with processed := st.processed + 1 }).batch st.store)
    with e | store1
  · rw [hsave] at hok
    exact absurd hok (by simp)
  · rw [hsave] at hok
    dsimp only at hok
    have hst := Except.ok.inj hok
    rw [← hst]
    have hsp : sourcesPhase cfg pfx { st with processed := st.processed + 1 } =
        sourcesPhase cfg pfx st := rfl
    rw [hsp]
    unfold expandPhase
    dsimp only
    by_cases hcond : pfx.length < cfg.maxDepth ∧
        cfg.minSuggestionsToExpand ≤ (sourcesPhase cfg pfx st).pfxUnique.length ∧
        (sourcesPhase cfg pfx st).uniq.length < cfg.budget
    · rw [if_pos hcond, if_pos hcond]
      show (expandChildren cfg.alphabet pfx (st.queue, st.visited)).1 = _
      rw [expandChildren_split]
    · rw [if_neg hcond, if_neg hcond]
      simp

/-- C2 witness: the expansion rule applied to a concrete prefix whose two
accepted keywords pass the threshold, enqueueing the two fresh children. -/
theorem processPfx_expansion_rule_witness :
    (processPfx c2cfg "a" c2st).map (fun s => s.queue) = Except.ok ["aa", "ab"] := by
  rcases hok : processPfx c2cfg "a" c2st with e | st1
  · cases e
    exact absurd hok (by decide)
  · have hq := processPfx_expansion_rule c2cfg "a" c2st st1 hok
    simp only [Except.map]
    rw [hq]
    decide

lemma PerSourceSeen.get_add_self (s : PerSourceSeen) (n : SourceName) (k : String) :
    (s.add n k).get n = (s.get n).insert k := by
  cases n <;> rfl

/-- C7: past budget exhaustion, a phrase already counted toward the
budget that arrives (not yet seen for this source in this prefix) is
still accepted and attributed: the unique set is unchanged, the phrase is
recorded in the per-source seen set and the per-prefix set, and if its
(source, phrase) combination is fresh it is persisted in the batch and
counted for the source; a phrase new to the run-wide unique set is
discarded without any state change. -/
theorem pastBudget_attribution (budget : ℕ) (pfx : String) (srcName : SourceName)
    (c : RunCtx) (sg : AutocompleteSuggestion) (nk : String)
    (hsan : sanitizeKeyword sg.keyword = some nk)
    (hexh : budget ≤ c.uniq.length) :
    (nk ∈ c.uniq → nk ∉ c.seen.get srcName →
      (processSuggestion budget pfx srcName c sg).uniq = c.uniq ∧
      nk ∈ (processSuggestion budget pfx srcName c sg).seen.get srcName ∧
      nk ∈ (processSuggestion budget pfx srcName c sg).pfxUnique ∧
      ((sg.source, nk) ∉ c.combos →
        (processSuggestion budget pfx srcName c sg).combos = (sg.source, nk) :: c.combos ∧
        (processSuggestion budget pfx srcName c sg).batch = c.batch ++
          [{ keyword := nk, source := sg.source, pfx := pfx, rank := sg.rank,
             payload := some (sg.payload.getD (Payload.original sg.keyword)) }] ∧
        (processSuggestion budget pfx srcName c sg).breakdown = c.breakdown.bump srcName)) ∧
    (nk ∉ c.uniq → processSuggestion budget pfx srcName c sg = c) := by
  constructor
  · intro hmem h1
    have h2 : ¬(nk ∉ c.uniq ∧ budget ≤ c.uniq.length) := fun hc => hc.1 hmem
    by_cases h3 : (sg.source, nk) ∈ c.combos
    · simp only [processSuggestion, hsan]
      rw [if_neg h1, if_neg h2, if_pos h3]
      refine ⟨List.insert_of_mem hmem, ?_, ?_, fun hc => absurd h3 hc⟩
      · show nk ∈ (c.seen.add srcName nk).get srcName
        rw [PerSourceSeen.get_add_self]
        exact List.mem_insert_self nk _
      · exact List.mem_insert_self nk _
    · simp only [processSuggestion, hsan]
      rw [if_neg h1, if_neg h2, if_neg h3]
      refine ⟨List.insert_of_mem hmem, ?_, ?_, fun _ => ⟨rfl, rfl, rfl⟩⟩
      · show nk ∈ (c.seen.add srcName nk).get srcName
        rw [PerSourceSeen.get_add_self]
        exact List.mem_insert_self nk _
      · exact List.mem_insert_self nk _
  · intro hnew
    simp only [processSuggestion, hsan]
    by_cases h1 : nk ∈ c.seen.get srcName
    · rw [if_pos h1]
    · rw [if_neg h1, if_pos ⟨hnew, hexh⟩]

/-- C7 witness: past exhaustion, the duplicate phrase from the other
source is persisted and attributed while the new phrase is discarded. -/
theorem pastBudget_attribution_witness :
    (processSuggestion 1 "h" SourceName.google c7ctx c7dup).batch =
      [{ keyword := "hello", source := SourceName.google, pfx := "h", rank := 3,
         payload := some (Payload.original "hello") }] ∧
    (processSuggestion 1 "h" SourceName.google c7ctx c7dup).breakdown = ⟨1, 1⟩ ∧
    processSuggestion 1 "h" SourceName.google c7ctx c7new = c7ctx := by
  have h := pastBudget_attribution 1 "h" SourceName.google c7ctx c7dup "hello"
    (by decide) (by decide)
  have hacc := (h.1 (by decide) (by decide)).2.2.2 (by decide)
  refine ⟨?_, ?_, ?_⟩
  · rw [hacc.2.1]
    decide
  · rw [hacc.2.2]
    decide
  · exact (pastBudget_attribution 1 "h" SourceName.google c7ctx c7new "newbie"
      (by decide) (by decide)).2 (by decide)

/-- C10: failure semantics. A source whose fetch faults for a prefix is
caught and contributes exactly as a source returning zero suggestions
(the run context is unchanged and the run continues), while a Store
fault during the batch write of a non-empty prefix batch propagates and
aborts processing of the prefix (and hence the whole run loop). -/
theorem fetch_and_store_fault_semantics :
    (∀ (budget : ℕ) (pfx : String) (c : RunCtx) (name : SourceName)
      (f g : String → Except Unit (List AutocompleteSuggestion)),
      f pfx = Except.error () → g pfx = Except.ok [] →
      processSource budget pfx c ⟨name, f⟩ = c ∧
      processSource budget pfx c ⟨name, f⟩ = processSource budget pfx c ⟨name, g⟩) ∧
    (∀ (cfg : LoopConfig) (pfx : String) (st : EnumState),
      (sourcesPhase cfg pfx st).batch.isEmpty = false →
      cfg.save (sourcesPhase cfg pfx st).batch st.store = Except.error () →
      processPfx cfg pfx st = Except.error ()) := by
  constructor
  · intro budget pfx c name f g hf hg
    have h1 : processSource budget pfx c ⟨name, f⟩ = c := by
      unfold processSource
      dsimp only
      rw [hf]
    have h2 : processSource budget pfx c ⟨name, g⟩ = c := by
      unfold processSource
      dsimp only
      rw [hg]
      rfl
    exact ⟨h1, h1.trans h2.symm⟩
  · intro cfg pfx st hbatch hsave
    simp only [processPfx]
    have hsp : sourcesPhase cfg pfx { st with processed := st.processed + 1 } =
        sourcesPhase cfg pfx st := rfl
    rw [hsp]
    rw [if_neg (by rw [hbatch]; simp), hsave]

/-- C10 witness: the fault semantics applied to a concrete erroring fetch
and to a concrete faulting Store write. -/
theorem fetch_and_store_fault_semantics_witness :
    processSource 5 "x" (initCtx c2st) ⟨SourceName.etsy, fun _ => Except.error ()⟩ =
      initCtx c2st ∧
    processPfx c10cfg "a" c2st = Except.error () := by
  constructor
  · exact (fetch_and_store_fault_semantics.1 5 "x" (initCtx c2st) SourceName.etsy
      (fun _ => Except.error ()) (fun _ => Except.ok []) rfl rfl).1
  · exact fetch_and_store_fault_semantics.2 c10cfg "a" c2st (by decide) rfl

lemma processSuggestion_combo_invariant (budget : ℕ) (pfx : String) (srcName : SourceName)
    (c0 : List (SourceName × String)) (c : RunCtx) (sg : AutocompleteSuggestion)
    (hinv : c.combos = (c.batch.map (fun x => (x.source, x.keyword))).reverse ++ c0 ∧
      (c.batch.map (fun x => (x.source, x.keyword))).Nodup ∧
      ∀ p ∈ c.batch.map (fun x => (x.source, x.keyword)), p ∉ c0) :
    (processSuggestion budget pfx srcName c sg).combos =
      ((processSuggestion budget pfx srcName c sg).batch.map
        (fun x => (x.source, x.keyword))).reverse ++ c0 ∧
    ((processSuggestion budget pfx srcName c sg).batch.map
      (fun x => (x.source, x.keyword))).Nodup ∧
    ∀ p ∈ (processSuggestion budget pfx srcName c sg).batch.map
      (fun x => (x.source, x.keyword)), p ∉ c0 := by
  cases hsan : sanitizeKeyword sg.keyword with
  | none =>
    simpa [processSuggestion, hsan] using hinv
  | some nk =>
    by_cases h1 : nk ∈ c.seen.get srcName
    · simp only [processSuggestion, hsan]
      rw [if_pos h1]
      exact hinv
    · by_cases h2 : nk ∉ c.uniq ∧ budget ≤ c.uniq.length
      · simp only [processSuggestion, hsan]
        rw [if_neg h1, if_pos h2]
        exact hinv
      · by_cases h3 : (sg.source, nk) ∈ c.combos
        · simp only [processSuggestion, hsan]
          rw [if_neg h1, if_neg h2, if_pos h3]
          exact hinv
        · simp only [processSuggestion, hsan]
          rw [if_neg h1, if_neg h2, if_neg h3]
          obtain ⟨hc, hnd, hfresh⟩ := hinv
          have hnotrev : (sg.source, nk) ∉
              (c.batch.map (fun x => (x.source, x.keyword))).reverse ++ c0 := by
            rw [← hc]
            exact h3
          have hnotbatch : (sg.source, nk) ∉ c.batch.map (fun x => (x.source, x.keyword)) := by
            intro hmem
            exact hnotrev (List.mem_append.mpr (Or.inl (List.mem_reverse.mpr hmem)))
          have hnotc0 : (sg.source, nk) ∉ c0 := fun hmem =>
            hnotrev (List.mem_append.mpr (Or.inr hmem))
          refine ⟨?_, ?_, ?_⟩
          · dsimp only
            rw [hc, List.map_append, List.reverse_append]
            simp
          · dsimp only
            rw [List.map_append, List.nodup_append]
            refine ⟨hnd, by simp, ?_⟩
            intro p hp hp2
            simp only [List.map_cons, List.map_nil, List.mem_cons, List.not_mem_nil,
              or_false] at hp2
            rw [hp2] at hp
            exact hnotbatch hp
          · dsimp only
            intro p hp
            rw [List.map_append, List.mem_append] at hp
            rcases hp with hp | hp
            · exact hfresh p hp
            · simp only [List.map_cons, List.map_nil, List.mem_cons, List.not_mem_nil,
                or_false] at hp
              rw [hp]
              exact hnotc0

lemma sourcesPhase_combo_invariant (cfg : LoopConfig) (pfx : String) (st : EnumState) :
    (sourcesPhase cfg pfx st).combos =
      ((sourcesPhase cfg pfx st).batch.map (fun x => (x.source, x.keyword))).reverse ++
        st.combos ∧
    ((sourcesPhase cfg pfx st).batch.map (fun x => (x.source, x.keyword))).Nodup ∧
    ∀ p ∈ (sourcesPhase cfg pfx st).batch.map (fun x => (x.source, x.keyword)),
      p ∉ st.combos := by
  unfold sourcesPhase
  apply foldl_preserve (P := fun c : RunCtx =>
    c.combos = (c.batch.map (fun x => (x.source, x.keyword))).reverse ++ st.combos ∧
    (c.batch.map (fun x => (x.source, x.keyword))).Nodup ∧
    ∀ p ∈ c.batch.map (fun x => (x.source, x.keyword)), p ∉ st.combos)
  · intro c src hc
    unfold processSource
    cases src.fetch pfx with
    | error e => exact hc
    | ok suggestions =>
      exact foldl_preserve _ _
        (fun c sg hcc => processSuggestion_combo_invariant cfg.budget pfx src.name
          st.combos c sg hcc) suggestions c hc
  · refine ⟨rfl, List.nodup_nil, ?_⟩
    intro p hp
    simp [initCtx] at hp

lemma expandPhase_store (cfg : LoopConfig) (pfx : String) (cnt : ℕ) (st : EnumState) :
    (expandPhase cfg pfx cnt st).store = st.store := by
  unfold expandPhase
  by_cases hc : pfx.length < cfg.maxDepth ∧ cfg.minSuggestionsToExpand ≤ cnt ∧
      st.uniq.length < cfg.budget
  · rw [if_pos hc]
  · rw [if_neg hc]

lemma expandPhase_totalPersisted (cfg : LoopConfig) (pfx : String) (cnt : ℕ) (st : EnumState) :
    (expandPhase cfg pfx cnt st).totalPersisted = st.totalPersisted := by
  unfold expandPhase
  by_cases hc : pfx.length < cfg.maxDepth ∧ cfg.minSuggestionsToExpand ≤ cnt ∧
      st.uniq.length < cfg.budget
  · rw [if_pos hc]
  · rw [if_neg hc]

lemma upsertSuggestionRow_conflict (now : ℕ) (kw : String) (src : SourceName) (p : String)
    (rank : ℕ) (payload : Payload) (rows : List SuggestionRow)
    (hex : rows.any (fun r => decide (r.keyword = kw ∧ r.source = src ∧ r.pfx = p)) = true) :
    (upsertSuggestionRow now kw src p rank payload rows).length = rows.length ∧
    ∀ r ∈ upsertSuggestionRow now kw src p rank payload rows,
      r.keyword = kw → r.source = src → r.pfx = p →
      r.rank = rank ∧ r.payload = payload ∧ r.fetchedTs = now := by
  unfold upsertSuggestionRow
  rw [if_pos hex]
  refine ⟨by simp, ?_⟩
  intro r hr h1 h2 h3
  obtain ⟨r0, hr0, heq⟩ := List.mem_map.mp hr
  by_cases hk : r0.keyword = kw ∧ r0.source = src ∧ r0.pfx = p
  · rw [if_pos hk] at heq
    rw [← heq]
    exact ⟨rfl, rfl, rfl⟩
  · rw [if_neg hk] at heq
    rw [← heq] at h1 h2 h3
    exact absurd ⟨h1, h2, h3⟩ hk

/-- C6 (amended): persistence semantics. Within one run, a suggestion is
persisted at most once per (phrase, source) pair: the batch of each
processed prefix contains only combinations fresh to the run, without
duplicates; the whole batch of a prefix goes to the Store as one write
(or no write when empty) and is counted; and re-saving an existing
(keyword, source, producing-query) row updates its rank, payload and
timestamp without creating a new row. (The source keys its run-wide
persisted-combination set by (source, phrase) alone, so the same phrase
from the same source under a second prefix is not persisted again.) -/
theorem suggestion_persistence_amended :
    (∀ (cfg : LoopConfig) (pfx : String) (st : EnumState),
      ((sourcesPhase cfg pfx st).batch.map (fun x => (x.source, x.keyword))).Nodup ∧
      (∀ p ∈ (sourcesPhase cfg pfx st).batch.map (fun x => (x.source, x.keyword)),
        p ∉ st.combos) ∧
      (sourcesPhase cfg pfx st).combos =
        ((sourcesPhase cfg pfx st).batch.map (fun x => (x.source, x.keyword))).reverse ++
          st.combos) ∧
    (∀ (cfg : LoopConfig) (pfx : String) (st st1 : EnumState),
      processPfx cfg pfx st = Except.ok st1 →
      st1.totalPersisted = st.totalPersisted + (sourcesPhase cfg pfx st).batch.length ∧
      (((sourcesPhase cfg pfx st).batch.isEmpty = true ∧ st1.store = st.store) ∨
        cfg.save (sourcesPhase cfg pfx st).batch st.store = Except.ok st1.store)) ∧
    (∀ (now : ℕ) (sg : AutocompleteSuggestion) (st : StoreState) (nk : String),
      normalizeKeyword sg.keyword = some nk →
      st.suggestions.any (fun r =>
        decide (r.keyword = nk ∧ r.source = sg.source ∧ r.pfx = sg.pfx)) = true →
      (saveSuggestions now [sg] st).suggestions.length = st.suggestions.length ∧
      ∀ r ∈ (saveSuggestions now [sg] st).suggestions,
        r.keyword = nk → r.source = sg.source → r.pfx = sg.pfx →
        r.rank = sg.rank ∧ r.payload = sg.payload.getD (Payload.raw sg.keyword) ∧
        r.fetchedTs = now) := by
  refine ⟨?_, ?_, ?_⟩
  · intro cfg pfx st
    obtain ⟨h1, h2, h3⟩ := sourcesPhase_combo_invariant cfg pfx st
    exact ⟨h2, h3, h1⟩
  · intro cfg pfx st st1 hok
    simp only [processPfx] at hok
    rcases hsave : (if (sourcesPhase cfg pfx
        { st with processed := st.processed + 1 }).batch.isEmpty
        then Except.ok st.store
        else cfg.save (sourcesPhase cfg pfx { st with processed := st.processed + 1 }).batch
          st.store)
      with e | store1
    · rw [hsave] at hok
      exact absurd hok (by simp)
    · rw [hsave] at hok
      dsimp only at hok
      have hst := Except.ok.inj hok
      have hsp : sourcesPhase cfg pfx { st with processed := st.processed + 1 } =
          sourcesPhase cfg pfx st := rfl
      rw [hsp] at hsave
      constructor
      · rw [← hst, expandPhase_totalPersisted]
        rfl
      · by_cases hemp : (sourcesPhase cfg pfx st).batch.isEmpty = true
        · left
          refine ⟨hemp, ?_⟩
          rw [if_pos hemp] at hsave
          have hstore := Except.ok.inj hsave
          rw [← hst, expandPhase_store, ← hstore]
        · right
          rw [if_neg hemp] at hsave
          rw [← hst, expandPhase_store]
          exact hsave
  · intro now sg st nk hn hex
    have hfold : saveSuggestions now [sg] st =
        { keywords := upsertKeywordSource now nk sg.source st.keywords
          suggestions := upsertSuggestionRow now nk sg.source sg.pfx sg.rank
            (sg.payload.getD (Payload.raw sg.keyword)) st.suggestions } := by
      simp only [saveSuggestions, List.foldl_cons, List.foldl_nil, hn]
    rw [hfold]
    exact upsertSuggestionRow_conflict now nk sg.source sg.pfx sg.rank
      (sg.payload.getD (Payload.raw sg.keyword)) st.suggestions hex

/-- C6 counterexample: the run processes both prefixes and the phrase is
accepted for the second prefix as well (it is in that prefix's distinct
set), yet the Store ends with a single (phrase, source, producing-query)
row, under the first prefix only — not one row per prefix as the claim
states. -/
theorem suggestion_persistence_counterexample :
    (runLoop (loopConfigOf c6cfg) 10 (initState c6cfg)).map
      (fun st => (st.processed, st.store.suggestions.map (fun r => (r.keyword, r.source, r.pfx)))) =
      Except.ok (2, [("hello", SourceName.etsy, "a")]) ∧
    (processPfx (loopConfigOf c6cfg) "a" (initState c6cfg)).map
      (fun st => (sourcesPhase (loopConfigOf c6cfg) "b" st).pfxUnique) =
      Except.ok ["hello"] := by
  constructor
  · decide
  · decide

/-- C6 witness: the amended persistence theorem applied to the concrete
conflicting re-save: same row count, updated rank and timestamp. -/
theorem suggestion_persistence_amended_witness :
    (saveSuggestions 9 [c6sg] c6store).suggestions.length = c6store.suggestions.length ∧
    (saveSuggestions 9 [c6sg] c6store).suggestions.map (fun r => (r.rank, r.fetchedTs)) =
      [(5, 9)] := by
  have h := suggestion_persistence_amended.2.2 9 c6sg c6store "hello" (by decide) (by decide)
  exact ⟨h.1, by decide⟩

lemma insertLe_perm {α : Type} (le : α → α → Bool) (a : α) :
    ∀ l : List α, (insertLe le a l).Perm (a :: l)
  | [] => List.Perm.refl _
  | b :: l => by
    unfold insertLe
    by_cases h : le a b = true
    · rw [if_pos h]
    · rw [if_neg h]
      exact ((insertLe_perm le a l).cons b).trans (List.Perm.swap a b l)

lemma sortLe_perm {α : Type} (le : α → α → Bool) :
    ∀ l : List α, (sortLe le l).Perm l
  | [] => List.Perm.refl _
  | b :: l => by
    unfold sortLe
    rw [List.foldr_cons]
    exact (insertLe_perm le b _).trans ((sortLe_perm le l).cons b)

lemma mapSet_keys {α : Type} (m : List (String × α)) (k : String) (v : α) :
    (mapSet m k v).map Prod.fst =
      if m.any (fun kv => kv.1 = k) then m.map Prod.fst else m.map Prod.fst ++ [k] := by
  unfold mapSet
  by_cases h : m.any (fun kv => decide (kv.1 = k)) = true
  · rw [if_pos h, if_pos h, List.map_map]
    apply List.map_congr_left
    intro kv _
    by_cases hk : kv.1 = k
    · simp [hk]
    · simp [hk]
  · rw [if_neg h, if_neg h, List.map_append]
    rfl

lemma mem_mapSet_keys {α : Type} (m : List (String × α)) (k k' : String) (v : α) :
    k' ∈ (mapSet m k v).map Prod.fst ↔ k' ∈ m.map Prod.fst ∨ k' = k := by
  rw [mapSet_keys]
  by_cases h : m.any (fun kv => decide (kv.1 = k)) = true
  · rw [if_pos h]
    constructor
    · exact Or.inl
    · rintro (hm | rfl)
      · exact hm
      · rw [List.any_eq_true] at h
        obtain ⟨kv, hkv, he⟩ := h
        rw [decide_eq_true_eq] at he
        exact List.mem_map.mpr ⟨kv, hkv, he⟩
  · rw [if_neg h]
    simp [List.mem_append]

lemma mapSet_keys_nodup {α : Type} (m : List (String × α)) (k : String) (v : α)
    (h : (m.map Prod.fst).Nodup) : ((mapSet m k v).map Prod.fst).Nodup := by
  rw [mapSet_keys]
  by_cases hc : m.any (fun kv => decide (kv.1 = k)) = true
  · rw [if_pos hc]; exact h
  · rw [if_neg hc]
    rw [List.any_eq_true] at hc
    push_neg at hc
    have hk : k ∉ m.map Prod.fst := by
      intro hmem
      obtain ⟨kv, hkv, he⟩ := List.mem_map.mp hmem
      exact hc kv hkv (by rw [decide_eq_true_eq]; exact he)
    simp [List.nodup_append, h, hk]

lemma metadataPass_keys (rs : List SearchResultsMetadataRecord) :
    ∀ (m : List (String × AggregatedMetrics)) (k : String),
      k ∈ (metadataPass m rs).map Prod.fst ↔
        k ∈ m.map Prod.fst ∨ k ∈ rs.map SearchResultsMetadataRecord.keyword := by
  induction rs with
  | nil => intro m k; simp [metadataPass]
  | cons r rs ih =>
    intro m k
    have hstep : metadataPass m (r :: rs) =
        metadataPass (mapSet m r.keyword { metadata := some r }) rs := rfl
    rw [hstep, ih, mem_mapSet_keys]
    simp [List.map_cons]
    tauto

lemma listingsPass_keys (rs : List ListingSampleRecord) :
    ∀ (m : List (String × AggregatedMetrics)) (k : String),
      k ∈ (listingsPass m rs).map Prod.fst ↔
        k ∈ m.map Prod.fst ∨ k ∈ rs.map ListingSampleRecord.keyword := by
  induction rs with
  | nil => intro m k; simp [listingsPass]
  | cons r rs ih =>
    intro m k
    have hstep : listingsPass m (r :: rs) =
        listingsPass (mapSet m r.keyword
          { (mapGet m r.keyword).getD {} with listing := some r }) rs := rfl
    rw [hstep, ih, mem_mapSet_keys]
    simp [List.map_cons]
    tauto

lemma trendsPass_keys (rs : List GoogleTrendsRecord) :
    ∀ (m : List (String × AggregatedMetrics)) (k : String),
      k ∈ (trendsPass m rs).map Prod.fst ↔
        k ∈ m.map Prod.fst ∨ k ∈ rs.map GoogleTrendsRecord.keyword := by
  induction rs with
  | nil => intro m k; simp [trendsPass]
  | cons r rs ih =>
    intro m k
    have hstep : trendsPass m (r :: rs) =
        trendsPass (mapSet m r.keyword
          { (mapGet m r.keyword).getD {} with trends := some r }) rs := rfl
    rw [hstep, ih, mem_mapSet_keys]
    simp [List.map_cons]
    tauto

lemma metadataPass_keys_nodup (rs : List SearchResultsMetadataRecord) :
    ∀ m : List (String × AggregatedMetrics), (m.map Prod.fst).Nodup →
      ((metadataPass m rs).map Prod.fst).Nodup := by
  induction rs with
  | nil => intro m h; exact h
  | cons r rs ih =>
    intro m h
    exact ih _ (mapSet_keys_nodup m r.keyword _ h)

lemma listingsPass_keys_nodup (rs : List ListingSampleRecord) :
    ∀ m : List (String × AggregatedMetrics), (m.map Prod.fst).Nodup →
      ((listingsPass m rs).map Prod.fst).Nodup := by
  induction rs with
  | nil => intro m h; exact h
  | cons r rs ih =>
    intro m h
    exact ih _ (mapSet_keys_nodup m r.keyword _ h)

lemma trendsPass_keys_nodup (rs : List GoogleTrendsRecord) :
    ∀ m : List (String × AggregatedMetrics), (m.map Prod.fst).Nodup →
      ((trendsPass m rs).map Prod.fst).Nodup := by
  induction rs with
  | nil => intro m h; exact h
  | cons r rs ih =>
    intro m h
    exact ih _ (mapSet_keys_nodup m r.keyword _ h)

lemma buildAggregatedMetrics_keys (metadata : List SearchResultsMetadataRecord)
    (listings : List ListingSampleRecord) (trends : List GoogleTrendsRecord) (k : String) :
    k ∈ (buildAggregatedMetrics metadata listings trends).map Prod.fst ↔
      k ∈ metadata.map SearchResultsMetadataRecord.keyword ∨
      k ∈ listings.map ListingSampleRecord.keyword ∨
      k ∈ trends.map GoogleTrendsRecord.keyword := by
  unfold buildAggregatedMetrics
  rw [trendsPass_keys, listingsPass_keys, metadataPass_keys]
  simp only [List.map_nil, List.not_mem_nil, false_or]
  tauto

lemma buildAggregatedMetrics_keys_nodup (metadata : List SearchResultsMetadataRecord)
    (listings : List ListingSampleRecord) (trends : List GoogleTrendsRecord) :
    ((buildAggregatedMetrics metadata listings trends).map Prod.fst).Nodup := by
  unfold buildAggregatedMetrics
  exact trendsPass_keys_nodup _ _ (listingsPass_keys_nodup _ _
    (metadataPass_keys_nodup _ _ (by simp)))

lemma countP_fst_eq_one {α : Type} (k : String) :
    ∀ m : List (String × α), (m.map Prod.fst).Nodup → k ∈ m.map Prod.fst →
      m.countP (fun kv => kv.1 = k) = 1 := by
  intro m
  induction m with
  | nil => intro _ hm; simp at hm
  | cons kv m ih =>
    intro hn hm
    rw [List.map_cons, List.nodup_cons] at hn
    rw [List.map_cons, List.mem_cons] at hm
    rw [List.countP_cons]
    by_cases h : kv.1 = k
    · have hz : m.countP (fun kv => decide (kv.1 = k)) = 0 := by
        rw [List.countP_eq_zero]
        intro a ha hc
        rw [decide_eq_true_eq] at hc
        apply hn.1
        rw [h, ← hc]
        exact List.mem_map.mpr ⟨a, ha, rfl⟩
      simp [h, hz]
    · rcases hm with h1 | h1
      · exact absurd h1.symm h
      · rw [ih hn.2 h1]
        simp [h]

lemma find_map_mapSet {α : Type} (k : String) (v : α) :
    ∀ m : List (String × α),
      List.find? (fun kv => kv.1 = k) (m.map (fun kv => if kv.1 = k then (k, v) else kv)) =
        if m.any (fun kv => kv.1 = k) then some (k, v) else none := by
  intro m
  induction m with
  | nil => rfl
  | cons a m ih =>
    rw [List.map_cons, List.any_cons]
    by_cases h : a.1 = k
    · rw [if_pos h]
      rw [List.find?_cons_of_pos _ (by simp)]
      simp [h]
    · rw [if_neg h]
      rw [List.find?_cons_of_neg _ (by simp [h])]
      rw [ih, decide_eq_false h, Bool.false_or]

lemma find_map_mapSet_ne {α : Type} (k k' : String) (v : α) (hne : k' ≠ k) :
    ∀ m : List (String × α),
      List.find? (fun kv => kv.1 = k') (m.map (fun kv => if kv.1 = k then (k, v) else kv)) =
        List.find? (fun kv => kv.1 = k') m := by
  intro m
  induction m with
  | nil => rfl
  | cons a m ih =>
    rw [List.map_cons]
    by_cases ha : a.1 = k
    · rw [if_pos ha]
      rw [List.find?_cons_of_neg _ (by simp; exact fun he => hne he.symm)]
      rw [List.find?_cons_of_neg _ (by simp [ha]; exact fun he => hne he.symm)]
      exact ih
    · rw [if_neg ha]
      by_cases hb : a.1 = k'
      · rw [List.find?_cons_of_pos _ (by simp [hb]), List.find?_cons_of_pos _ (by simp [hb])]
      · rw [List.find?_cons_of_neg _ (by simp [hb]), List.find?_cons_of_neg _ (by simp [hb])]
        exact ih

lemma mapGet_mapSet_self {α : Type} (m : List (String × α)) (k : String) (v : α) :
    mapGet (mapSet m k v) k = some v := by
  unfold mapGet mapSet
  by_cases h : m.any (fun kv => decide (kv.1 = k)) = true
  · rw [if_pos h, find_map_mapSet, if_pos h]
    rfl
  · rw [if_neg h, List.find?_append]
    have hnone : List.find? (fun kv => decide (kv.1 = k)) m = none := by
      rw [List.find?_eq_none]
      intro kv hkv hc
      exact h (List.any_eq_true.mpr ⟨kv, hkv, hc⟩)
    rw [hnone]
    rw [List.find?_cons_of_pos _ (by simp)]
    rfl

lemma mapGet_mapSet_ne {α : Type} (m : List (String × α)) (k k' : String) (v : α)
    (hne : k' ≠ k) : mapGet (mapSet m k v) k' = mapGet m k' := by
  unfold mapGet mapSet
  by_cases h : m.any (fun kv => decide (kv.1 = k)) = true
  · rw [if_pos h, find_map_mapSet_ne _ _ _ hne]
  · rw [if_neg h, List.find?_append]
    rw [List.find?_cons_of_neg _ (by simp; exact fun he => hne he.symm)]
    rw [List.find?_nil]
    cases hf : List.find? (fun kv => decide (kv.1 = k')) m with
    | some kv => rfl
    | none => rfl

lemma listingsPass_get_of_not_mem (k : String) (rs : List ListingSampleRecord) :
    ∀ m : List (String × AggregatedMetrics), k ∉ rs.map ListingSampleRecord.keyword →
      mapGet (listingsPass m rs) k = mapGet m k := by
  induction rs with
  | nil => intro m _; rfl
  | cons r rs ih =>
    intro m hk
    rw [List.map_cons, List.mem_cons] at hk
    push_neg at hk
    have hstep : listingsPass m (r :: rs) =
        listingsPass (mapSet m r.keyword
          { (mapGet m r.keyword).getD {} with listing := some r }) rs := rfl
    rw [hstep, ih _ hk.2, mapGet_mapSet_ne]
    exact hk.1

lemma metadataPass_get_of_not_mem (k : String) (rs : List SearchResultsMetadataRecord) :
    ∀ m : List (String × AggregatedMetrics), k ∉ rs.map SearchResultsMetadataRecord.keyword →
      mapGet (metadataPass m rs) k = mapGet m k := by
  induction rs with
  | nil => intro m _; rfl
  | cons r rs ih =>
    intro m hk
    rw [List.map_cons, List.mem_cons] at hk
    push_neg at hk
    have hstep : metadataPass m (r :: rs) =
        metadataPass (mapSet m r.keyword { metadata := some r }) rs := rfl
    rw [hstep, ih _ hk.2, mapGet_mapSet_ne]
    exact hk.1

lemma trendsPass_get_pres (k : String) (rs : List GoogleTrendsRecord) :
    ∀ m : List (String × AggregatedMetrics),
      (∃ a, mapGet m k = some a ∧ a.metadata = none ∧ a.listing = none) →
      ∃ a, mapGet (trendsPass m rs) k = some a ∧ a.metadata = none ∧ a.listing = none := by
  induction rs with
  | nil => intro m h; exact h
  | cons r rs ih =>
    intro m h
    obtain ⟨a, hget, hm, hl⟩ := h
    have hstep : trendsPass m (r :: rs) =
        trendsPass (mapSet m r.keyword
          { (mapGet m r.keyword).getD {} with trends := some r }) rs := rfl
    rw [hstep]
    by_cases hr : r.keyword = k
    · apply ih
      refine ⟨{ (mapGet m r.keyword).getD {} with trends := some r }, ?_, ?_, ?_⟩
      · rw [hr, mapGet_mapSet_self]
      · rw [hr, hget]
        exact hm
      · rw [hr, hget]
        exact hl
    · apply ih
      refine ⟨a, ?_, hm, hl⟩
      rw [mapGet_mapSet_ne _ _ _ _ (fun he => hr he.symm)]
      exact hget

lemma trendsPass_get_inv (k : String) (rs : List GoogleTrendsRecord) :
    ∀ m : List (String × AggregatedMetrics),
      (mapGet m k = none ∨ ∃ a, mapGet m k = some a ∧ a.metadata = none ∧ a.listing = none) →
      k ∈ rs.map GoogleTrendsRecord.keyword →
      ∃ a, mapGet (trendsPass m rs) k = some a ∧ a.metadata = none ∧ a.listing = none := by
  induction rs with
  | nil => intro m _ hk; simp at hk
  | cons r rs ih =>
    intro m h hk
    have hstep : trendsPass m (r :: rs) =
        trendsPass (mapSet m r.keyword
          { (mapGet m r.keyword).getD {} with trends := some r }) rs := rfl
    rw [hstep]
    by_cases hr : r.keyword = k
    · apply trendsPass_get_pres
      refine ⟨{ (mapGet m r.keyword).getD {} with trends := some r }, ?_, ?_, ?_⟩
      · rw [hr, mapGet_mapSet_self]
      · rw [hr]
        rcases h with h | ⟨a, hget, hm, _⟩
        · rw [h]; rfl
        · rw [hget]; exact hm
      · rw [hr]
        rcases h with h | ⟨a, hget, _, hl⟩
        · rw [h]; rfl
        · rw [hget]; exact hl
    · rw [List.map_cons, List.mem_cons] at hk
      rcases hk with hk | hk
      · exact absurd hk.symm hr
      · apply ih _ _ hk
        rw [mapGet_mapSet_ne _ _ _ _ (fun he => hr he.symm)]
        exact h

lemma buildAggregatedMetrics_trend_only (metadata : List SearchResultsMetadataRecord)
    (listings : List ListingSampleRecord) (trends : List GoogleTrendsRecord) (k : String)
    (hm : k ∉ metadata.map SearchResultsMetadataRecord.keyword)
    (hl : k ∉ listings.map ListingSampleRecord.keyword)
    (ht : k ∈ trends.map GoogleTrendsRecord.keyword) :
    ∃ a, mapGet (buildAggregatedMetrics metadata listings trends) k = some a ∧
      a.metadata = none ∧ a.listing = none := by
  unfold buildAggregatedMetrics
  apply trendsPass_get_inv _ _ _ _ ht
  left
  rw [listingsPass_get_of_not_mem _ _ _ hl, metadataPass_get_of_not_mem _ _ _ hm]
  rfl

lemma mapGet_mem {α : Type} (m : List (String × α)) (k : String) (a : α)
    (h : mapGet m k = some a) : (k, a) ∈ m := by
  unfold mapGet at h
  cases hf : List.find? (fun kv => decide (kv.1 = k)) m with
  | none => rw [hf] at h; simp at h
  | some kv =>
    rw [hf] at h
    have h2 : kv.2 = a := Option.some.inj h
    have hmem := List.mem_of_find?_eq_some hf
    have hp := List.find?_some hf
    rw [decide_eq_true_eq] at hp
    have hkv : kv = (k, a) := by
      cases kv
      exact congrArg₂ Prod.mk hp h2
    rw [← hkv]
    exact hmem

/-- C9: total coverage of the scorer. (i) Every keyword present in at
least one of the three metric tables receives exactly one snapshot in
the scorer output. (ii) Each component whose underlying signal is
absent contributes 0 to the demand or competition breakdown. (iii) A
keyword present only in the trends table still receives a snapshot,
with all competition components zero. -/
theorem scorer_total_coverage :
    (∀ (log1p : ℚ → ℚ) (w : WeightsConfig) (now : ℕ)
        (metadata : List SearchResultsMetadataRecord) (listings : List ListingSampleRecord)
        (trends : List GoogleTrendsRecord) (k : String),
      (k ∈ metadata.map SearchResultsMetadataRecord.keyword ∨
       k ∈ listings.map ListingSampleRecord.keyword ∨
       k ∈ trends.map GoogleTrendsRecord.keyword) →
      (scorerCompute log1p w now metadata listings trends).countP
        (fun s => s.keyword = k) = 1) ∧
    (∀ (log1p : ℚ → ℚ) (w : WeightsConfig) (now : ℕ) (k : String)
        (m : AggregatedMetrics) (s : SeriesBundle),
      (m.trends.bind (fun r => r.interest) = none →
        (computeSnapshot log1p w now k m s).components.demand.trends = 0) ∧
      (m.listing.bind (fun r => r.reviewVelocity) = none →
        (computeSnapshot log1p w now k m s).components.demand.reviewVelocity = 0) ∧
      (coalesce (m.listing.bind (fun r => r.avgFavorites))
          (m.listing.bind (fun r => r.medianFavorites)) = none →
        (computeSnapshot log1p w now k m s).components.demand.favorites = 0) ∧
      (m.metadata.bind (fun r => r.resultsCount) = none →
        (computeSnapshot log1p w now k m s).components.competition.resultsCount = 0) ∧
      (m.metadata.bind (fun r => r.adRatio) = none →
        (computeSnapshot log1p w now k m s).components.competition.adRatio = 0) ∧
      (m.metadata.bind (fun r => r.dominanceIndex) = none →
        (computeSnapshot log1p w now k m s).components.competition.dominance = 0) ∧
      (coalesce (m.listing.bind (fun r => r.priceIqrOverMedian))
          (m.metadata.bind (fun r => r.priceIqrOverMedian)) = none →
        (computeSnapshot log1p w now k m s).components.competition.priceDispersion = 0)) ∧
    (∀ (log1p : ℚ → ℚ) (w : WeightsConfig) (now : ℕ)
        (metadata : List SearchResultsMetadataRecord) (listings : List ListingSampleRecord)
        (trends : List GoogleTrendsRecord) (k : String),
      k ∉ metadata.map SearchResultsMetadataRecord.keyword →
      k ∉ listings.map ListingSampleRecord.keyword →
      k ∈ trends.map GoogleTrendsRecord.keyword →
      ∃ snap ∈ scorerCompute log1p w now metadata listings trends,
        snap.keyword = k ∧
        snap.components.competition = ⟨0, 0, 0, 0⟩ ∧
        snap.components.demand.reviewVelocity = 0 ∧
        snap.components.demand.favorites = 0) := by
  refine ⟨?_, ?_, ?_⟩
  · intro log1p w now metadata listings trends k hk
    simp only [scorerCompute]
    rw [(sortLe_perm _ _).countP_eq, List.countP_map]
    have hfun : ((fun s : OpportunitySnapshotRecord => decide (s.keyword = k)) ∘
        (fun kv : String × AggregatedMetrics => computeSnapshot log1p w now kv.1 kv.2
          { logResults := collectSeries (metadata.map (fun r => r.resultsCount.map log1p))
            adRatio := collectSeries (metadata.map (fun r => r.adRatio))
            dominance := collectSeries (metadata.map (fun r => r.dominanceIndex))
            priceDispersion := collectSeries (listings.map (fun r => r.priceIqrOverMedian) ++
              metadata.map (fun r => r.priceIqrOverMedian))
            reviewVelocity := collectSeries (listings.map (fun r => r.reviewVelocity))
            favorites := collectSeries (listings.map
              (fun r => coalesce r.avgFavorites r.medianFavorites))
            trends := collectSeries (trends.map (fun r => r.interest)) })) =
        (fun kv : String × AggregatedMetrics => decide (kv.1 = k)) := by
      funext kv
      rfl
    rw [hfun]
    exact countP_fst_eq_one k _ (buildAggregatedMetrics_keys_nodup metadata listings trends)
      ((buildAggregatedMetrics_keys metadata listings trends k).mpr hk)
  · intro log1p w now k m s
    refine ⟨?_, ?_, ?_, ?_, ?_, ?_, ?_⟩
    · intro h
      simp only [computeSnapshot]
      rw [h]
      rfl
    · intro h
      simp only [computeSnapshot]
      rw [h]
      exact mul_zero _
    · intro h
      simp only [computeSnapshot]
      rw [h]
      exact mul_zero _
    · intro h
      simp only [computeSnapshot]
      rw [h]
      rfl
    · intro h
      simp only [computeSnapshot]
      rw [h]
      exact mul_zero _
    · intro h
      simp only [computeSnapshot]
      rw [h]
      exact mul_zero _
    · intro h
      simp only [computeSnapshot]
      rw [h]
      exact mul_zero _
  · intro log1p w now metadata listings trends k hm hl ht
    obtain ⟨a, hget, hmeta, hlist⟩ :=
      buildAggregatedMetrics_trend_only metadata listings trends k hm hl ht
    simp only [scorerCompute]
    refine ⟨_, ((sortLe_perm _ _).mem_iff).mpr
      (List.mem_map_of_mem _ (mapGet_mem _ _ _ hget)), rfl, ?_, ?_, ?_⟩
    · simp only [computeSnapshot, hmeta, hlist]
      simp [optNormalize, coalesce, mul_zero]
    · simp only [computeSnapshot, hlist]
      simp [optNormalize, mul_zero]
    · simp only [computeSnapshot, hlist]
      simp [optNormalize, coalesce, mul_zero]

/-- C9 witness: the coverage theorem applied to a run whose only data is
a single trends row: the keyword receives exactly one snapshot, with
zero competition components. -/
theorem scorer_total_coverage_witness :
    ("mug" ∉ ([] : List SearchResultsMetadataRecord).map SearchResultsMetadataRecord.keyword ∧
     "mug" ∈ [c9trend].map GoogleTrendsRecord.keyword) ∧
    (∃ snap ∈ scorerCompute id c9weights 0 [] [] [c9trend],
      snap.keyword = "mug" ∧ snap.components.competition = ⟨0, 0, 0, 0⟩ ∧
      snap.components.demand.reviewVelocity = 0 ∧ snap.components.demand.favorites = 0) ∧
    (scorerCompute id c9weights 0 [] [] [c9trend]).countP (fun s => s.keyword = "mug") = 1 := by
  refine ⟨⟨by decide, by decide⟩, ?_, ?_⟩
  · exact scorer_total_coverage.2.2 id c9weights 0 [] [] [c9trend] "mug"
      (by decide) (by decide) (by decide)
  · exact scorer_total_coverage.1 id c9weights 0 [] [] [c9trend] "mug"
      (Or.inr (Or.inr (by decide)))
